import Mathlib

/-!
Verification development for the `trimpb` protobuf-trimming tool.

The definitions below are a shallow embedding of the trimming core found in
`cmd/trimpb/main.go` (package `trimpb`: `runTrim`, `findMethods`,
`collectDependencies`, `isFileRequired`, `filterFileDescriptor`) and of the
path canonicalization of the in-memory revision (`TrimMulti`,
`findLongestCommonPrefixPath`).

Modelling conventions:
  * descriptor objects (files, messages, enums, services, methods) are plain
    structures; fully-qualified names are strings, and cross-descriptor
    pointers of the Go descriptor graph become fully-qualified-name
    references resolved against the corpus;
  * the Go maps `requiredMessages` / `requiredEnums` (sets keyed by
    fully-qualified name) become duplicate-free lists with guarded insertion;
  * the recursive `collectDependencies` walk is linearized into an explicit
    task list (exactly the design §9 of the documentation asks for), driven
    by a fuel counter large enough to drain the task list; fuel sufficiency
    is proved (`collectLoop_irrel`), so the fuelled function computes the
    same fixpoint the Go recursion reaches;
  * parsing and descriptor re-serialization are external collaborators and
    are not modelled; the trimming core returns the pruned descriptor data.
-/

/-- A field of a record (message) type: at most one record-type reference and
at most one enum-type reference, by fully-qualified name (`nil` pointers in
the Go descriptor become `none`). -/
structure FieldD where
  msgRef : Option String
  enumRef : Option String
deriving DecidableEq

/-- A record (message) type: fully-qualified name plus its ordered fields. -/
structure MessageD where
  name : String
  fields : List FieldD
deriving DecidableEq

/-- An RPC method: simple name plus input/output record-type references. -/
structure MethodD where
  name : String
  inputType : String
  outputType : String
deriving DecidableEq

/-- A service: simple name, fully-qualified name, ordered methods. -/
structure ServiceD where
  name : String
  fullName : String
  methods : List MethodD
deriving DecidableEq

/-- One entry of the source-code-info location table: the structural path
(small integer sequence) plus an opaque payload (span and comment text) that
the pruner clones verbatim. -/
structure LocationD where
  path : List Nat
  info : String
deriving DecidableEq

/-- A parsed file node: identity, package, syntax tag, import edges (by file
name), owned top-level record types, enum types (fully-qualified names; enum
bodies are passthrough), services, and the optional documentation-location
table. -/
structure FileD where
  name : String
  pkg : String
  isProto3 : Bool
  deps : List String
  messages : List MessageD
  enums : List String
  services : List ServiceD
  locations : Option (List LocationD)
deriving DecidableEq

/-- A resolved entry method, as returned by the method resolver: the owning
file name, the owning service, the method index inside that service, and the
method itself.  In Go this is a `*desc.MethodDescriptor`; pointer identity
corresponds to the triple (file, service, index). -/
structure MethodRef where
  fileName : String
  svc : ServiceD
  mIdx : Nat
  m : MethodD
deriving DecidableEq

/-- The trimmer working state: the two monotone required-name sets
(`requiredMessages`, `requiredEnums` in Go, maps used as sets). -/
structure TState where
  requiredMessages : List String
  requiredEnums : List String
deriving DecidableEq

/-- All top-level messages of the reachable file set (the message corpus the
descriptor pointers of the Go graph range over). -/
def allMessages (fds : List FileD) : List MessageD :=
  fds.flatMap (fun fd => fd.messages)

/-- Resolve a fully-qualified message name against the corpus (the shallow
counterpart of following a `*desc.MessageDescriptor` pointer). -/
def findMsg (corpus : List MessageD) (n : String) : Option MessageD :=
  corpus.find? (fun m => m.name == n)

/-- Guarded insertion into the required-enum set
(`t.requiredEnums[name] = struct{}{}` on the Go map). -/
def enumInsert (e : String) (s : TState) : TState :=
  if e ∈ s.requiredEnums then s else ⟨s.requiredMessages, e :: s.requiredEnums⟩

/-- A pending unit of the dependency walk: visit a record type
(a `collectDependencies` call) or record an enum reference. -/
inductive DepTask where
  | visitMsg : String → DepTask
  | markEnum : String → DepTask
deriving DecidableEq

/-- The tasks a single field of a visited record type generates, in the
order the Go loop body performs them: first the record-type reference
(recursive call), then the enum reference. -/
def fieldTasks (f : FieldD) : List DepTask :=
  (match f.msgRef with
   | some n => [DepTask.visitMsg n]
   | none => []) ++
  (match f.enumRef with
   | some e => [DepTask.markEnum e]
   | none => [])

/-- The dependency-collection walk of `collectDependencies`, linearized into
an explicit task list: a visited record type is skipped, an unvisited one is
added to `requiredMessages` and its fields are expanded depth-first in
declaration order, and enum references are added to `requiredEnums`.  The
fuel argument only bounds the number of steps; `collectLoop_irrel` below
shows any fuel of at least `stackMeasure` computes the drained fixpoint. -/
def collectLoop (corpus : List MessageD) : Nat → List DepTask → TState → TState
  | 0, _, s => s
  | _ + 1, [], s => s
  | fuel + 1, DepTask.markEnum e :: rest, s =>
      collectLoop corpus fuel rest (enumInsert e s)
  | fuel + 1, DepTask.visitMsg n :: rest, s =>
      if n ∈ s.requiredMessages then
        collectLoop corpus fuel rest s
      else
        match findMsg corpus n with
        | none => collectLoop corpus fuel rest ⟨n :: s.requiredMessages, s.requiredEnums⟩
        | some md =>
            collectLoop corpus fuel (md.fields.flatMap fieldTasks ++ rest)
              ⟨n :: s.requiredMessages, s.requiredEnums⟩

/-- Total number of fields over the whole message corpus. -/
def totalFields (corpus : List MessageD) : Nat :=
  (corpus.map (fun m => m.fields.length)).sum

/-- Per-expansion bound: expanding one record type pushes at most
`2 * totalFields corpus` new tasks. -/
def weight (corpus : List MessageD) : Nat := 2 * totalFields corpus + 1

/-- Fuel that always suffices for a single-root walk. -/
def topFuel (corpus : List MessageD) : Nat := weight corpus * corpus.length + 1

/-- `collectDependencies` of the Go trimmer: run the walk from one record
type (the Go function receives the message descriptor; here its
fully-qualified name, resolved by `findMsg`). -/
def collectDependencies (corpus : List MessageD) (n : String) (s : TState) : TState :=
  collectLoop corpus (topFuel corpus) [DepTask.visitMsg n] s

/-- Record-type names not yet visited (proof-side measure only). -/
def unvisited (corpus : List MessageD) (s : TState) : Nat :=
  ((corpus.map MessageD.name).toFinset \ s.requiredMessages.toFinset).card

/-- The decreasing measure of the walk: every `collectLoop` step strictly
decreases it. -/
def stackMeasure (corpus : List MessageD) (stack : List DepTask) (s : TState) : Nat :=
  weight corpus * unvisited corpus s + stack.length

/-- The references of one field are accounted for: either already recorded in
the state, or still pending on the task list. -/
def refsPending (t : TState) (stack : List DepTask) (f : FieldD) : Prop :=
  (∀ n, f.msgRef = some n → n ∈ t.requiredMessages ∨ DepTask.visitMsg n ∈ stack) ∧
  (∀ e, f.enumRef = some e → e ∈ t.requiredEnums ∨ DepTask.markEnum e ∈ stack)

/-- Every collected record type has all its field references either collected
or pending on the task list. -/
def stateClosedExcept (corpus : List MessageD) (stack : List DepTask) (t : TState) : Prop :=
  ∀ m ∈ t.requiredMessages, ∀ md, findMsg corpus m = some md →
    ∀ f ∈ md.fields, refsPending t stack f

/-- Every collected record type has all its field references collected: the
closedness invariant of the final trimmer state. -/
def stateClosed (corpus : List MessageD) (t : TState) : Prop :=
  stateClosedExcept corpus [] t

/-- Seeding the closure with one resolved entry method: first its input type,
then its output type (`runTrim` step 5). -/
def seedMethod (corpus : List MessageD) (s : TState) (mr : MethodRef) : TState :=
  collectDependencies corpus mr.m.outputType (collectDependencies corpus mr.m.inputType s)

/-- Seeding the closure with the whole resolved entry-method list, in order. -/
def seedAll (corpus : List MessageD) (methods : List MethodRef) (s : TState) : TState :=
  methods.foldl (seedMethod corpus) s

/-- The fresh trimmer state (`newTrimmer`). -/
def initialState : TState := ⟨[], []⟩

/-- Character-list prefix test (executable helper for substring search). -/
def isPrefixChars : List Char → List Char → Bool
  | [], _ => true
  | _ :: _, [] => false
  | a :: as, b :: bs => a == b && isPrefixChars as bs

/-- Character-list substring occurrence (the semantics of Go
`strings.Contains(hay, pat)`). -/
def containsChars : List Char → List Char → Bool
  | [], pat => isPrefixChars pat []
  | c :: t, pat => isPrefixChars pat (c :: t) || containsChars t pat

/-- Go `strings.Contains(s, pat)`: `pat` occurs in `s` as a contiguous,
case-sensitive substring. -/
def strContains (s pat : String) : Bool := containsChars s.data pat.data

/-- Go `strings.Count(s, ".")`: number of separator dots in a selector. -/
def dotCount (s : String) : Nat := s.data.count '.'

/-- Split a character list at every occurrence of the separator (the
semantics of Go `strings.Split` for a one-character separator). -/
def splitOnSep (c : Char) (l : List Char) : List (List Char) :=
  l.foldr
    (fun ch acc =>
      match acc with
      | seg :: restSegs => if ch == c then [] :: seg :: restSegs else (ch :: seg) :: restSegs
      | [] => [[ch]])
    [[]]

/-- Go `strings.Split(s, sep)` for a one-character separator. -/
def splitString (c : Char) (s : String) : List String :=
  (splitOnSep c s.data).map (fun cs => String.mk cs)

/-- The fully-qualified name of a method (owning service plus simple name). -/
def methodFQN (svc : ServiceD) (m : MethodD) : String := svc.fullName ++ "." ++ m.name

/-- A symbol a file can resolve a fully-qualified name to
(`fd.FindSymbol`): a message, an enum, a service, or a method. -/
inductive SymbolD where
  | msgSym : MessageD → SymbolD
  | enumSym : String → SymbolD
  | svcSym : ServiceD → SymbolD
  | methodSym : ServiceD → Nat → MethodD → SymbolD
deriving DecidableEq

/-- Search a service list for a method whose fully-qualified name matches. -/
def findMethodSym (svcs : List ServiceD) (name : String) : Option SymbolD :=
  match svcs with
  | [] => none
  | svc :: rest =>
      match (svc.methods.enum.find? (fun p => methodFQN svc p.2 == name)) with
      | some p => some (SymbolD.methodSym svc p.1 p.2)
      | none => findMethodSym rest name

/-- `fd.FindSymbol(name)`: resolve a fully-qualified name inside one file to
whichever descriptor owns it (messages, enums, services, then methods). -/
def findSymbolD (fd : FileD) (name : String) : Option SymbolD :=
  match fd.messages.find? (fun m => m.name == name) with
  | some m => some (SymbolD.msgSym m)
  | none =>
      match fd.enums.find? (fun e => e == name) with
      | some e => some (SymbolD.enumSym e)
      | none =>
          match fd.services.find? (fun s => s.fullName == name) with
          | some s => some (SymbolD.svcSym s)
          | none => findMethodSym fd.services name

/-- The qualified-selector loop of `findMethods` (`dotCount >= 2`): scan all
reachable files; a file whose symbol lookup yields a method wins; a file
whose lookup yields nothing, or a non-method symbol, is passed over. -/
def findQualified (allFiles : List FileD) (name : String) : Option MethodRef :=
  match allFiles with
  | [] => none
  | fd :: rest =>
      match findSymbolD fd name with
      | some (SymbolD.methodSym svc i m) => some ⟨fd.name, svc, i, m⟩
      | _ => findQualified rest name

/-- The `Service.Method` scan over one entry file's services: an exactly
matching service name, then an exactly matching method name
(`service.FindMethodByName`); a name-matching service without the method
does not stop the scan. -/
def findInServices (fdName : String) (svcs : List ServiceD) (sn mn : String) :
    Option MethodRef :=
  match svcs with
  | [] => none
  | svc :: rest =>
      if svc.name == sn then
        match svc.methods.enum.find? (fun p => p.2.name == mn) with
        | some p => some ⟨fdName, svc, p.1, p.2⟩
        | none => findInServices fdName rest sn mn
      else findInServices fdName rest sn mn

/-- The `dotCount == 1` search of `findMethods`: only the declared entry
files are scanned. -/
def findServiceMethod (entryFiles : List FileD) (sn mn : String) : Option MethodRef :=
  match entryFiles with
  | [] => none
  | fd :: rest =>
      match findInServices fd.name fd.services sn mn with
      | some r => some r
      | none => findServiceMethod rest sn mn

/-- The `dotCount == 0` collection of `findMethods`: every method of every
entry file's services whose simple name contains the selector as a
case-sensitive substring, in declaration order. -/
def substrMatches (entryFiles : List FileD) (sel : String) : List MethodRef :=
  entryFiles.flatMap (fun fd =>
    fd.services.flatMap (fun svc =>
      (svc.methods.enum.filter (fun p => strContains p.2.name sel)).map
        (fun p => ⟨fd.name, svc, p.1, p.2⟩)))

/-- The shared `MethodNotFound` error text of `findMethods`. -/
def methodNotFoundMsg (sel : String) : String :=
  "method matching " ++ sel ++ " not found in any of the provided entry files or their imports"

/-- `findMethods` of `cmd/trimpb/main.go`: selector resolution by separator
count.  Two or more dots: exact fully-qualified symbol lookup over all
reachable files.  Exactly one dot: exact `Service.Method` match over the
entry files.  No dot: case-sensitive substring collection over the entry
files' methods.  The qualified and service-scoped forms, and an empty
substring collection, fail with the shared not-found error. -/
def findMethods (methodName : String) (entryFiles allFiles : List FileD) :
    Except String (List MethodRef) :=
  if dotCount methodName ≥ 2 then
    match findQualified allFiles methodName with
    | some mr => Except.ok [mr]
    | none => Except.error (methodNotFoundMsg methodName)
  else if dotCount methodName == 1 then
    let parts := splitString '.' methodName
    let serviceName := parts.getD 0 ""
    let simpleMethodName := parts.getD 1 ""
    match findServiceMethod entryFiles serviceName simpleMethodName with
    | some mr => Except.ok [mr]
    | none => Except.error (methodNotFoundMsg methodName)
  else
    let found := substrMatches entryFiles methodName
    if found.length > 0 then Except.ok found
    else Except.error (methodNotFoundMsg methodName)

/-- The resolution loop of `runTrim` (step 4): resolve each selector in
order, aborting on the first error, and concatenate the matches. -/
def resolveSelectors (selectors : List String) (entryFiles allFiles : List FileD) :
    Except String (List MethodRef) :=
  match selectors with
  | [] => Except.ok []
  | sel :: rest =>
      match findMethods sel entryFiles allFiles with
      | Except.error e => Except.error e
      | Except.ok ms =>
          match resolveSelectors rest entryFiles allFiles with
          | Except.error e => Except.error e
          | Except.ok more => Except.ok (ms ++ more)

/-- Cleanup mode: with no selectors, every method declared directly by the
entry files' services becomes an entry-point method. -/
def entryMethodRefs (entryFiles : List FileD) : List MethodRef :=
  entryFiles.flatMap (fun fd =>
    fd.services.flatMap (fun svc =>
      svc.methods.enum.map (fun p => ⟨fd.name, svc, p.1, p.2⟩)))

/-- A pruned service (`descriptorpb.ServiceDescriptorProto` as rebuilt by the
pruner): simple name plus the resolved methods kept for it, in resolution
order; options are passthrough. -/
structure PrunedService where
  name : String
  method : List MethodD
deriving DecidableEq

/-- A pruned file descriptor (`descriptorpb.FileDescriptorProto` as rebuilt
by `filterFileDescriptor`). -/
structure FilePruned where
  name : String
  pkg : String
  syntaxStr : String
  dependency : List String
  messageType : List MessageD
  enumType : List String
  service : List PrunedService
  sourceInfo : Option (List LocationD)
deriving DecidableEq

/-- The result of a trimming run: the pruned descriptors (keyed by their file
name) plus whether the no-methods warning fired.  Rendering descriptors to
schema text is the external serializer's job and is not modelled. -/
structure TrimOutput where
  files : List FilePruned
  warned : Bool
deriving DecidableEq

/-- `isFileRequired`: the file owns an entry-point method (compared by owning
file name), or a required record type, or a required enum type. -/
def isFileRequired (t : TState) (methods : List MethodRef) (fd : FileD) : Bool :=
  methods.any (fun m => m.fileName == fd.name) ||
  fd.messages.any (fun m => t.requiredMessages.contains m.name) ||
  fd.enums.any (fun e => t.requiredEnums.contains e)

/-- The resolved entry methods declared in file `fdName` that belong to the
service with fully-qualified name `svcFull`, in resolution order (the
`methodsByService` grouping of `filterFileDescriptor`). -/
def resolvedForService (methods : List MethodRef) (fdName : String) (svcFull : String) :
    List MethodRef :=
  methods.filter (fun m => m.fileName == fdName && m.svc.fullName == svcFull)

/-- A service survives pruning iff at least one resolved entry method
declared in this file belongs to it. -/
def svcKeep (methods : List MethodRef) (fdName : String) (svc : ServiceD) : Bool :=
  !(resolvedForService methods fdName svc.fullName).isEmpty

/-- The old-index to new-index map built while filtering one element
category: the element at old index `i`, when kept, lands at the index equal
to the number of kept elements before it (Go builds the same map
incrementally while appending). -/
def newIndexAt {α : Type} (keep : α → Bool) (l : List α) (i : Nat) : Option Nat :=
  match l[i]? with
  | none => none
  | some x => if keep x then some ((l.take i).countP keep) else none

/-- The method map of one kept service: Go fills `methodMap[method]` while
appending the resolved methods, so a method resolved more than once keeps
the index of its last occurrence. -/
def methodNewIndex (resolved : List MethodRef) (origIdx : Nat) : Option Nat :=
  ((resolved.enum.filter (fun p => p.2.mIdx == origIdx)).map (fun p => p.1)).getLast?

/-- Re-index one source-code-info location against the pruned file
(`filterFileDescriptor`, SourceCodeInfo rebuild): file-level (empty path) and
package (`path[0] == 1`) entries are kept unchanged; top-level message (4),
enum (5) and service (6) entries are kept with the new index when the
referenced element survives, and dropped otherwise; method entries
(`path = 6, i, 2, j, ...`) additionally re-index the method against the kept
service's resolved-method list; every other path head is dropped. -/
def rewriteLoc (st : TState) (methods : List MethodRef) (fd : FileD) (loc : LocationD) :
    Option LocationD :=
  match loc.path with
  | [] => some loc
  | 1 :: _ => some loc
  | 4 :: i :: rest =>
      match newIndexAt (fun m => st.requiredMessages.contains m.name) fd.messages i with
      | some ni => some ⟨4 :: ni :: rest, loc.info⟩
      | none => none
  | 5 :: i :: rest =>
      match newIndexAt (fun e => st.requiredEnums.contains e) fd.enums i with
      | some ni => some ⟨5 :: ni :: rest, loc.info⟩
      | none => none
  | 6 :: i :: rest =>
      match newIndexAt (svcKeep methods fd.name) fd.services i with
      | none => none
      | some ni =>
          match fd.services[i]? with
          | none => none
          | some svc =>
              match rest with
              | 2 :: j :: rest2 =>
                  if j < svc.methods.length then
                    match methodNewIndex
                        (resolvedForService methods fd.name svc.fullName) j with
                    | some nj => some ⟨6 :: ni :: 2 :: nj :: rest2, loc.info⟩
                    | none => none
                  else none
              | _ => some ⟨6 :: ni :: rest, loc.info⟩
  | _ => none

/-- `filterFileDescriptor`: rebuild one retained file.  Name, package and
syntax tag are copied; messages and enums are filtered against the required
sets; services keep only resolved methods, grouped per service in resolution
order; import edges survive only when their target file is also retained;
the location table is re-indexed entry by entry. -/
def filterFileDescriptor (st : TState) (methods : List MethodRef)
    (keptNames : List String) (fd : FileD) : FilePruned :=
  { name := fd.name
    pkg := fd.pkg
    syntaxStr := if fd.isProto3 then "proto3" else "proto2"
    dependency := fd.deps.filter (fun d => keptNames.contains d)
    messageType := fd.messages.filter (fun m => st.requiredMessages.contains m.name)
    enumType := fd.enums.filter (fun e => st.requiredEnums.contains e)
    service := (fd.services.filter (svcKeep methods fd.name)).map (fun svc =>
      ⟨svc.name, (resolvedForService methods fd.name svc.fullName).map (fun r => r.m)⟩)
    sourceInfo := fd.locations.map (fun locs => locs.filterMap (rewriteLoc st methods fd)) }

/-- `runTrim` from the point where the entry-point methods are fixed
(steps 5-8): collect the type closure of every resolved method, return the
empty warned result when selectors were supplied but nothing resolved,
otherwise decide file retention once against the final closure and prune
every retained file. -/
def trimWithMethods (fds : List FileD) (methods : List MethodRef)
    (selectorsSupplied : Bool) : TrimOutput :=
  let st := seedAll (allMessages fds) methods initialState
  if methods.isEmpty && selectorsSupplied then ⟨[], true⟩
  else
    let kept := fds.filter (fun fd => isFileRequired st methods fd)
    let keptNames := kept.map (fun fd => fd.name)
    ⟨kept.map (filterFileDescriptor st methods keptNames), false⟩

/-- `runTrim`: no entry files is fatal; an empty selector list switches to
cleanup mode; otherwise every selector is resolved (first failure aborts);
the retained files are then pruned by `trimWithMethods`. -/
def runTrim (entryFileDescs : List FileD) (methodNames : List String)
    (fds : List FileD) : Except String TrimOutput :=
  if entryFileDescs.isEmpty then
    Except.error "no entry proto files were parsed successfully"
  else
    match
      if methodNames.isEmpty then Except.ok (entryMethodRefs entryFileDescs)
      else resolveSelectors methodNames entryFileDescs fds with
    | Except.error e => Except.error e
    | Except.ok methods =>
        Except.ok (trimWithMethods fds methods (!methodNames.isEmpty))

/-- The trimmer state after the whole closure collection of one run. -/
def finalState (fds : List FileD) (methods : List MethodRef) : TState :=
  seedAll (allMessages fds) methods initialState

/-- The files the run retains (`filesToTrim`), in corpus order. -/
def keptFiles (fds : List FileD) (methods : List MethodRef) : List FileD :=
  fds.filter (fun fd => isFileRequired (finalState fds methods) methods fd)

/-- The names of the retained files (the key set of `filesToTrim`). -/
def keptFileNames (fds : List FileD) (methods : List MethodRef) : List String :=
  (keptFiles fds methods).map FileD.name

/-- Scenario E corpus: a record type whose single field references the
record type itself (a direct cycle). -/
def cycMsg : MessageD := ⟨"pkg.A", [⟨some "pkg.A", none⟩]⟩

/-- The service of the cyclic scenario. -/
def cycSvc : ServiceD := ⟨"S", "pkg.S", [⟨"M", "pkg.A", "pkg.A"⟩]⟩

/-- The single file of the cyclic scenario. -/
def cycFile : FileD := ⟨"cyc.proto", "pkg", true, [], [cycMsg], [], [cycSvc], none⟩

/-- The resolved entry method of the cyclic scenario. -/
def cycRef : MethodRef := ⟨"cyc.proto", cycSvc, 0, ⟨"M", "pkg.A", "pkg.A"⟩⟩

instance {ε α : Type} [DecidableEq ε] [DecidableEq α] : DecidableEq (Except ε α) :=
  fun x y =>
    match x, y with
    | Except.ok a, Except.ok b =>
        if h : a = b then isTrue (by rw [h])
        else isFalse (by intro hc; cases hc; exact h rfl)
    | Except.error e, Except.error f =>
        if h : e = f then isTrue (by rw [h])
        else isFalse (by intro hc; cases hc; exact h rfl)
    | Except.ok _, Except.error _ => isFalse (by intro hc; cases hc)
    | Except.error _, Except.ok _ => isFalse (by intro hc; cases hc)

/-- Entry-file service used by the resolution witnesses. -/
def wsvc : ServiceD :=
  ⟨"Svc", "pkg.Svc",
    [⟨"CreateProject", "pkg.Req", "pkg.Resp"⟩,
     ⟨"CreateInvoice", "pkg.Req", "pkg.Resp"⟩,
     ⟨"Delete", "pkg.Req", "pkg.Resp"⟩]⟩

/-- Entry file used by the resolution witnesses. -/
def wfileEntry : FileD := ⟨"entry.proto", "pkg", true, [], [], [], [wsvc], none⟩

/-- A file whose symbol table resolves `pkg.Svc.Delete` to a message (a
non-method symbol), used to exercise the skip behaviour. -/
def wfileDecoy : FileD :=
  ⟨"decoy.proto", "pkg", true, [], [⟨"pkg.Svc.Delete", []⟩], [], [], none⟩

/-- The method the qualified lookup resolves in the witness corpus. -/
def wmr0 : MethodRef := ⟨"entry.proto", wsvc, 2, ⟨"Delete", "pkg.Req", "pkg.Resp"⟩⟩

/-- File owning only a leaf record type, imported by `depFileA`. -/
def depFileB : FileD := ⟨"b.proto", "pkg", true, [], [⟨"pkg.B", []⟩], [], [], none⟩

/-- Service of the import-soundness witness corpus. -/
def depSvcA : ServiceD := ⟨"SA", "pkg.SA", [⟨"MA", "pkg.A2", "pkg.A2"⟩]⟩

/-- File importing `b.proto`, with a record type referencing `pkg.B`. -/
def depFileA : FileD :=
  ⟨"a.proto", "pkg", true, ["b.proto"], [⟨"pkg.A2", [⟨some "pkg.B", none⟩]⟩], [],
    [depSvcA], none⟩

/-- The resolved entry method of the import-soundness witness corpus. -/
def depRef : MethodRef := ⟨"a.proto", depSvcA, 0, ⟨"MA", "pkg.A2", "pkg.A2"⟩⟩

/-- The spec-side direct-reference relation: some record type named `a` in
the corpus has a field referencing record type `b`. -/
def DirectMsgRef (corpus : List MessageD) (a b : String) : Prop :=
  ∃ m ∈ corpus, m.name = a ∧ ∃ f ∈ m.fields, f.msgRef = some b

/-- The spec-side enum-reference relation: some record type named `a` in the
corpus has a field referencing enum type `e`. -/
def DirectEnumRef (corpus : List MessageD) (a e : String) : Prop :=
  ∃ m ∈ corpus, m.name = a ∧ ∃ f ∈ m.fields, f.enumRef = some e

/-- Go `strings.Join(segs, "/")`. -/
def joinPath (segs : List String) : String :=
  String.mk (List.intercalate ['/'] (segs.map String.data))

/-- Go `filepath.Dir` on clean, slash-separated relative paths: all but the
last segment, or `"."` for a single-segment path (external library function,
modelled on the path shapes the canonicalizer handles). -/
def pathDir (p : String) : String :=
  let parts := splitString '/' p
  if parts.length ≤ 1 then "." else joinPath parts.dropLast

/-- The segment loop of `findLongestCommonPrefixPath`: advance while the
reference path's segment is matched by every other path at the same
position (running off any path's end stops the loop, which is the `minLen`
bound of the Go code). -/
def commonPrefixAll : List String → List (List String) → List String
  | [], _ => []
  | s :: ss, others =>
      if others.all (fun o => o.head? == some s) then
        s :: commonPrefixAll ss (others.map (fun o => o.tail))
      else []

/-- `findLongestCommonPrefixPath`: empty input gives the empty prefix, a
single path gives its containing directory, several paths give their
longest common segment-wise prefix. -/
def findLongestCommonPrefixPath (paths : List String) : String :=
  match paths with
  | [] => ""
  | [p] => pathDir p
  | p :: q :: rest =>
      joinPath (commonPrefixAll (splitString '/' p) ((q :: rest).map (splitString '/')))

/-- The virtual import root of `TrimMulti`: the longest common prefix with a
trailing separator appended when nonempty. -/
def commonRootOf (allPaths : List String) : String :=
  let r := findLongestCommonPrefixPath allPaths
  if r == "" then "" else r ++ "/"

/-- Go `strings.TrimPrefix`. -/
def trimPrefixStr (s pre : String) : String :=
  if isPrefixChars pre.data s.data then String.mk (s.data.drop pre.data.length) else s

/-- Key remapping of `TrimMulti`: strip the common root from a path. -/
def remapPath (commonRoot p : String) : String := trimPrefixStr p commonRoot

/-- Key restoration of `TrimMulti`: re-prepend the common root, keeping it
only when the resulting path is one of the caller's original paths
(defensive fallback otherwise). -/
def restorePath (allPaths : List String) (commonRoot trimmedPath : String) : String :=
  if allPaths.contains (commonRoot ++ trimmedPath) then commonRoot ++ trimmedPath
  else trimmedPath

theorem enumInsert_msgs (e : String) (s : TState) :
    (enumInsert e s).requiredMessages = s.requiredMessages := by
  unfold enumInsert; split <;> rfl

theorem enumInsert_mem (e : String) (s : TState) : e ∈ (enumInsert e s).requiredEnums := by
  unfold enumInsert; split
  · assumption
  · exact List.mem_cons_self _ _

theorem enumInsert_enums_sub (e : String) (s : TState) :
    s.requiredEnums ⊆ (enumInsert e s).requiredEnums := by
  unfold enumInsert; split
  · exact fun _ h => h
  · exact fun _ h => List.mem_cons_of_mem _ h

theorem findMsg_mem {corpus : List MessageD} {n : String} {md : MessageD}
    (h : findMsg corpus n = some md) : md ∈ corpus ∧ md.name = n := by
  unfold findMsg at h
  refine ⟨List.mem_of_find?_eq_some h, ?_⟩
  have := List.find?_some h
  simpa using this

theorem findMsg_name_mem {corpus : List MessageD} {n : String} {md : MessageD}
    (h : findMsg corpus n = some md) : n ∈ (corpus.map MessageD.name).toFinset := by
  obtain ⟨hmem, hname⟩ := findMsg_mem h
  simp only [List.mem_toFinset, List.mem_map]
  exact ⟨md, hmem, hname⟩

theorem findMsg_none {corpus : List MessageD} {n : String}
    (h : findMsg corpus n = none) : n ∉ (corpus.map MessageD.name).toFinset := by
  intro hn
  simp only [List.mem_toFinset, List.mem_map] at hn
  obtain ⟨md, hmem, hname⟩ := hn
  unfold findMsg at h
  have := List.find?_eq_none.mp h md hmem
  simp [hname] at this

theorem unvisited_le_of_subset {corpus : List MessageD} {s t : TState}
    (h : s.requiredMessages ⊆ t.requiredMessages) :
    unvisited corpus t ≤ unvisited corpus s := by
  unfold unvisited
  apply Finset.card_le_card
  apply Finset.sdiff_subset_sdiff (le_refl _)
  intro x hx
  simp only [List.mem_toFinset] at hx ⊢
  exact h hx

theorem unvisited_cons_lt {corpus : List MessageD} {s : TState} {n : String} {E : List String}
    (hn : n ∉ s.requiredMessages) (hmem : n ∈ (corpus.map MessageD.name).toFinset) :
    unvisited corpus ⟨n :: s.requiredMessages, E⟩ < unvisited corpus s := by
  unfold unvisited
  have hset : (corpus.map MessageD.name).toFinset \ (n :: s.requiredMessages).toFinset
      = ((corpus.map MessageD.name).toFinset \ s.requiredMessages.toFinset).erase n := by
    ext x
    simp only [Finset.mem_sdiff, List.toFinset_cons, Finset.mem_insert, Finset.mem_erase,
      List.mem_toFinset]
    tauto
  rw [hset]
  apply Finset.card_erase_lt_of_mem
  simp only [Finset.mem_sdiff, List.mem_toFinset]
  exact ⟨by simpa using hmem, hn⟩

theorem unvisited_cons_eq {corpus : List MessageD} {s : TState} {n : String} {E : List String}
    (hmem : n ∉ (corpus.map MessageD.name).toFinset) :
    unvisited corpus ⟨n :: s.requiredMessages, E⟩ = unvisited corpus s := by
  unfold unvisited
  congr 1
  ext x
  simp only [Finset.mem_sdiff, List.toFinset_cons, Finset.mem_insert, List.mem_toFinset] at *
  constructor
  · rintro ⟨h1, h2⟩; exact ⟨h1, fun hx => h2 (Or.inr hx)⟩
  · rintro ⟨h1, h2⟩
    refine ⟨h1, ?_⟩
    rintro (rfl | hx)
    · exact hmem (by simpa using h1)
    · exact h2 hx

theorem fields_le_totalFields {corpus : List MessageD} {md : MessageD} (h : md ∈ corpus) :
    md.fields.length ≤ totalFields corpus := by
  unfold totalFields
  exact List.le_sum_of_mem (List.mem_map_of_mem _ h)

theorem fieldTasks_length (f : FieldD) : (fieldTasks f).length ≤ 2 := by
  unfold fieldTasks
  cases f.msgRef <;> cases f.enumRef <;> simp

theorem flatMap_fieldTasks_length (fields : List FieldD) :
    (fields.flatMap fieldTasks).length ≤ 2 * fields.length := by
  induction fields with
  | nil => simp
  | cons f rest ih =>
      simp only [List.flatMap_cons, List.length_append, List.length_cons]
      have := fieldTasks_length f
      omega

theorem collectLoop_nil (corpus : List MessageD) (fuel : Nat) (s : TState) :
    collectLoop corpus fuel [] s = s := by
  cases fuel <;> rfl

/-- Measure decrease for the expansion step. -/
theorem stackMeasure_expand {corpus : List MessageD} {s : TState} {n : String}
    {md : MessageD} {rest : List DepTask}
    (hn : n ∉ s.requiredMessages) (hfind : findMsg corpus n = some md) :
    stackMeasure corpus (md.fields.flatMap fieldTasks ++ rest)
      ⟨n :: s.requiredMessages, s.requiredEnums⟩
      < stackMeasure corpus (DepTask.visitMsg n :: rest) s := by
  unfold stackMeasure
  have hlt : unvisited corpus ⟨n :: s.requiredMessages, s.requiredEnums⟩ < unvisited corpus s :=
    unvisited_cons_lt hn (findMsg_name_mem hfind)
  have hflen : (md.fields.flatMap fieldTasks).length ≤ 2 * totalFields corpus := by
    calc (md.fields.flatMap fieldTasks).length ≤ 2 * md.fields.length :=
          flatMap_fieldTasks_length md.fields
      _ ≤ 2 * totalFields corpus := by
          have := fields_le_totalFields (findMsg_mem hfind).1
          omega
  have hw : weight corpus = 2 * totalFields corpus + 1 := rfl
  have h1 : weight corpus * (unvisited corpus ⟨n :: s.requiredMessages, s.requiredEnums⟩ + 1)
      ≤ weight corpus * unvisited corpus s := Nat.mul_le_mul_left _ (by omega)
  simp only [List.length_append, List.length_cons]
  nlinarith [h1]

theorem stackMeasure_tail_le {corpus : List MessageD} {s t : TState} {task : DepTask}
    {rest : List DepTask} (h : s.requiredMessages ⊆ t.requiredMessages) :
    stackMeasure corpus rest t < stackMeasure corpus (task :: rest) s := by
  unfold stackMeasure
  have := @unvisited_le_of_subset corpus s t h
  have hw : 1 ≤ weight corpus := by unfold weight; omega
  simp only [List.length_cons]
  nlinarith

/-- Any single step of the loop, on a nonempty stack, strictly decreases the
measure; packaged as the four cases used below. -/
theorem stackMeasure_pos {corpus : List MessageD} {task : DepTask} {rest : List DepTask}
    {s : TState} : 1 ≤ stackMeasure corpus (task :: rest) s := by
  unfold stackMeasure
  simp only [List.length_cons]
  omega

/-- States only grow along the walk. -/
theorem collectLoop_mono (corpus : List MessageD) (fuel : Nat) :
    ∀ (stack : List DepTask) (s : TState),
      s.requiredMessages ⊆ (collectLoop corpus fuel stack s).requiredMessages ∧
      s.requiredEnums ⊆ (collectLoop corpus fuel stack s).requiredEnums := by
  induction fuel with
  | zero => intro stack s; exact ⟨fun _ h => h, fun _ h => h⟩
  | succ fuel ih =>
      intro stack s
      match stack with
      | [] => exact ⟨fun _ h => h, fun _ h => h⟩
      | DepTask.markEnum e :: rest =>
          have h := ih rest (enumInsert e s)
          rw [collectLoop]
          refine ⟨?_, ?_⟩
          · rw [enumInsert_msgs] at h; exact h.1
          · exact fun x hx => h.2 (enumInsert_enums_sub e s hx)
      | DepTask.visitMsg n :: rest =>
          rw [collectLoop]
          by_cases hn : n ∈ s.requiredMessages
          · simp only [if_pos hn]
            exact ih rest s
          · simp only [if_neg hn]
            cases hfind : findMsg corpus n with
            | none =>
                have h := ih rest ⟨n :: s.requiredMessages, s.requiredEnums⟩
                exact ⟨fun x hx => h.1 (List.mem_cons_of_mem _ hx), h.2⟩
            | some md =>
                have h := ih (md.fields.flatMap fieldTasks ++ rest)
                  ⟨n :: s.requiredMessages, s.requiredEnums⟩
                exact ⟨fun x hx => h.1 (List.mem_cons_of_mem _ hx), h.2⟩

theorem enumInsert_nodup {e : String} {s : TState} (h : s.requiredEnums.Nodup) :
    (enumInsert e s).requiredEnums.Nodup := by
  unfold enumInsert; split
  · exact h
  · exact List.nodup_cons.mpr ⟨by assumption, h⟩

/-- Each required-name set receives every fully-qualified name at most once:
the guarded insertions keep both lists duplicate-free. -/
theorem collectLoop_nodup (corpus : List MessageD) (fuel : Nat) :
    ∀ (stack : List DepTask) (s : TState),
      s.requiredMessages.Nodup → s.requiredEnums.Nodup →
      (collectLoop corpus fuel stack s).requiredMessages.Nodup ∧
      (collectLoop corpus fuel stack s).requiredEnums.Nodup := by
  induction fuel with
  | zero => intro stack s h1 h2; exact ⟨h1, h2⟩
  | succ fuel ih =>
      intro stack s h1 h2
      match stack with
      | [] => exact ⟨h1, h2⟩
      | DepTask.markEnum e :: rest =>
          rw [collectLoop]
          exact ih rest (enumInsert e s) (by rw [enumInsert_msgs]; exact h1)
            (enumInsert_nodup h2)
      | DepTask.visitMsg n :: rest =>
          rw [collectLoop]
          by_cases hn : n ∈ s.requiredMessages
          · simp only [if_pos hn]
            exact ih rest s h1 h2
          · simp only [if_neg hn]
            cases hfind : findMsg corpus n with
            | none => exact ih rest _ (List.nodup_cons.mpr ⟨hn, h1⟩) h2
            | some md => exact ih _ _ (List.nodup_cons.mpr ⟨hn, h1⟩) h2

theorem stackMeasure_zero_nil {corpus : List MessageD} {stack : List DepTask} {s : TState}
    (h : stackMeasure corpus stack s = 0) : stack = [] := by
  unfold stackMeasure at h
  exact List.length_eq_zero.mp (by omega)

/-- One step of the walk, abstracted: on a nonempty stack, every branch moves
to a configuration of strictly smaller measure. -/
theorem collectLoop_step (corpus : List MessageD) (task : DepTask) (rest : List DepTask)
    (s : TState) :
    ∃ stack' s',
      (∀ fuel, collectLoop corpus (fuel + 1) (task :: rest) s = collectLoop corpus fuel stack' s') ∧
      stackMeasure corpus stack' s' < stackMeasure corpus (task :: rest) s := by
  cases task with
  | markEnum e =>
      refine ⟨rest, enumInsert e s, fun fuel => by rw [collectLoop], ?_⟩
      exact stackMeasure_tail_le (by rw [enumInsert_msgs]; exact fun _ h => h)
  | visitMsg n =>
      by_cases hn : n ∈ s.requiredMessages
      · refine ⟨rest, s, fun fuel => by rw [collectLoop]; simp only [if_pos hn], ?_⟩
        exact stackMeasure_tail_le (fun _ h => h)
      · cases hfind : findMsg corpus n with
        | none =>
            refine ⟨rest, ⟨n :: s.requiredMessages, s.requiredEnums⟩,
              fun fuel => by rw [collectLoop]; simp only [if_neg hn, hfind], ?_⟩
            exact stackMeasure_tail_le (fun _ h => List.mem_cons_of_mem _ h)
        | some md =>
            refine ⟨md.fields.flatMap fieldTasks ++ rest,
              ⟨n :: s.requiredMessages, s.requiredEnums⟩,
              fun fuel => by rw [collectLoop]; simp only [if_neg hn, hfind], ?_⟩
            exact stackMeasure_expand hn hfind

/-- Fuel irrelevance: once the fuel covers the measure, the walk has drained
the task list and the result no longer depends on the fuel.  This is the
termination argument for the Go recursion, transported to the fuelled
model. -/
theorem collectLoop_irrel (corpus : List MessageD) :
    ∀ (f1 : Nat) (stack : List DepTask) (s : TState) (f2 : Nat),
      stackMeasure corpus stack s ≤ f1 → stackMeasure corpus stack s ≤ f2 →
      collectLoop corpus f1 stack s = collectLoop corpus f2 stack s := by
  intro f1
  induction f1 with
  | zero =>
      intro stack s f2 h1 _
      have : stack = [] := stackMeasure_zero_nil (Nat.le_zero.mp h1)
      subst this
      rw [collectLoop_nil, collectLoop_nil]
  | succ f1 ih =>
      intro stack s f2 h1 h2
      match stack with
      | [] => rw [collectLoop_nil, collectLoop_nil]
      | task :: rest =>
          obtain ⟨stack', s', hstep, hlt⟩ := collectLoop_step corpus task rest s
          have hpos : 1 ≤ stackMeasure corpus (task :: rest) s := stackMeasure_pos
          match f2, h2 with
          | f2 + 1, h2 =>
              rw [hstep f1, hstep f2]
              exact ih stack' s' f2 (by omega) (by omega)

theorem fieldTasks_msg {f : FieldD} {n : String} (h : f.msgRef = some n) :
    DepTask.visitMsg n ∈ fieldTasks f := by
  unfold fieldTasks
  rw [h]
  simp

theorem fieldTasks_enum {f : FieldD} {e : String} (h : f.enumRef = some e) :
    DepTask.markEnum e ∈ fieldTasks f := by
  unfold fieldTasks
  rw [h]
  cases f.msgRef <;> simp

/-- Every root placed on the task list ends up collected. -/
theorem collectLoop_mem (corpus : List MessageD) (fuel : Nat) :
    ∀ (stack : List DepTask) (s : TState),
      stackMeasure corpus stack s ≤ fuel →
      (∀ n, DepTask.visitMsg n ∈ stack →
        n ∈ (collectLoop corpus fuel stack s).requiredMessages) ∧
      (∀ e, DepTask.markEnum e ∈ stack →
        e ∈ (collectLoop corpus fuel stack s).requiredEnums) := by
  induction fuel with
  | zero =>
      intro stack s h
      have : stack = [] := stackMeasure_zero_nil (Nat.le_zero.mp h)
      subst this
      simp
  | succ fuel ih =>
      intro stack s h
      match stack with
      | [] => simp
      | DepTask.markEnum e0 :: rest =>
          rw [collectLoop]
          have hlt : stackMeasure corpus rest (enumInsert e0 s)
              < stackMeasure corpus (DepTask.markEnum e0 :: rest) s :=
            stackMeasure_tail_le (by rw [enumInsert_msgs]; exact fun _ h => h)
          have hih := ih rest (enumInsert e0 s) (by omega)
          constructor
          · intro n hn
            rcases List.mem_cons.mp hn with heq | hmem
            · cases heq
            · exact hih.1 n hmem
          · intro e he
            rcases List.mem_cons.mp he with heq | hmem
            · cases heq
              exact (collectLoop_mono corpus fuel rest (enumInsert e0 s)).2
                (enumInsert_mem e0 s)
            · exact hih.2 e hmem
      | DepTask.visitMsg n0 :: rest =>
          rw [collectLoop]
          by_cases hn : n0 ∈ s.requiredMessages
          · simp only [if_pos hn]
            have hlt : stackMeasure corpus rest s
                < stackMeasure corpus (DepTask.visitMsg n0 :: rest) s :=
              stackMeasure_tail_le (fun _ h => h)
            have hih := ih rest s (by omega)
            constructor
            · intro n hmem
              rcases List.mem_cons.mp hmem with heq | hmem2
              · cases heq
                exact (collectLoop_mono corpus fuel rest s).1 hn
              · exact hih.1 n hmem2
            · intro e hmem
              rcases List.mem_cons.mp hmem with heq | hmem2
              · cases heq
              · exact hih.2 e hmem2
          · simp only [if_neg hn]
            cases hfind : findMsg corpus n0 with
            | none =>
                have hlt : stackMeasure corpus rest ⟨n0 :: s.requiredMessages, s.requiredEnums⟩
                    < stackMeasure corpus (DepTask.visitMsg n0 :: rest) s :=
                  stackMeasure_tail_le (fun _ h => List.mem_cons_of_mem _ h)
                have hih := ih rest ⟨n0 :: s.requiredMessages, s.requiredEnums⟩ (by omega)
                constructor
                · intro n hmem
                  rcases List.mem_cons.mp hmem with heq | hmem2
                  · cases heq
                    exact (collectLoop_mono corpus fuel rest _).1 (List.mem_cons_self _ _)
                  · exact hih.1 n hmem2
                · intro e hmem
                  rcases List.mem_cons.mp hmem with heq | hmem2
                  · cases heq
                  · exact hih.2 e hmem2
            | some md =>
                have hlt := @stackMeasure_expand corpus s n0 md rest hn hfind
                have hih := ih (md.fields.flatMap fieldTasks ++ rest)
                  ⟨n0 :: s.requiredMessages, s.requiredEnums⟩ (by omega)
                constructor
                · intro n hmem
                  rcases List.mem_cons.mp hmem with heq | hmem2
                  · cases heq
                    exact (collectLoop_mono corpus fuel _ _).1 (List.mem_cons_self _ _)
                  · exact hih.1 n (List.mem_append_right _ hmem2)
                · intro e hmem
                  rcases List.mem_cons.mp hmem with heq | hmem2
                  · cases heq
                  · exact hih.2 e (List.mem_append_right _ hmem2)

/-- Once the fuel covers the measure, the walk drains the task list and the
resulting state is closed under field references. -/
theorem collectLoop_closed (corpus : List MessageD) (fuel : Nat) :
    ∀ (stack : List DepTask) (s : TState),
      stackMeasure corpus stack s ≤ fuel →
      stateClosedExcept corpus stack s →
      stateClosed corpus (collectLoop corpus fuel stack s) := by
  induction fuel with
  | zero =>
      intro stack s h hJ
      have : stack = [] := stackMeasure_zero_nil (Nat.le_zero.mp h)
      subst this
      exact hJ
  | succ fuel ih =>
      intro stack s h hJ
      match stack with
      | [] => exact hJ
      | DepTask.markEnum e0 :: rest =>
          rw [collectLoop]
          have hlt : stackMeasure corpus rest (enumInsert e0 s)
              < stackMeasure corpus (DepTask.markEnum e0 :: rest) s :=
            stackMeasure_tail_le (by rw [enumInsert_msgs]; exact fun _ h => h)
          apply ih rest (enumInsert e0 s) (by omega)
          intro m hm md hfind f hf
          have hold := hJ m (by rw [enumInsert_msgs] at hm; exact hm) md hfind f hf
          constructor
          · intro n hn
            rcases hold.1 n hn with hin | hstk
            · exact Or.inl (by rw [enumInsert_msgs]; exact hin)
            · rcases List.mem_cons.mp hstk with heq | hr
              · cases heq
              · exact Or.inr hr
          · intro e he
            rcases hold.2 e he with hin | hstk
            · exact Or.inl (enumInsert_enums_sub e0 s hin)
            · rcases List.mem_cons.mp hstk with heq | hr
              · cases heq
                exact Or.inl (enumInsert_mem e0 s)
              · exact Or.inr hr
      | DepTask.visitMsg n0 :: rest =>
          rw [collectLoop]
          by_cases hn : n0 ∈ s.requiredMessages
          · simp only [if_pos hn]
            have hlt : stackMeasure corpus rest s
                < stackMeasure corpus (DepTask.visitMsg n0 :: rest) s :=
              stackMeasure_tail_le (fun _ h => h)
            apply ih rest s (by omega)
            intro m hm md hfind f hf
            have hold := hJ m hm md hfind f hf
            constructor
            · intro n hmr
              rcases hold.1 n hmr with hin | hstk
              · exact Or.inl hin
              · rcases List.mem_cons.mp hstk with heq | hr
                · cases heq; exact Or.inl hn
                · exact Or.inr hr
            · intro e her
              rcases hold.2 e her with hin | hstk
              · exact Or.inl hin
              · rcases List.mem_cons.mp hstk with heq | hr
                · cases heq
                · exact Or.inr hr
          · simp only [if_neg hn]
            cases hfind0 : findMsg corpus n0 with
            | none =>
                have hlt : stackMeasure corpus rest ⟨n0 :: s.requiredMessages, s.requiredEnums⟩
                    < stackMeasure corpus (DepTask.visitMsg n0 :: rest) s :=
                  stackMeasure_tail_le (fun _ h => List.mem_cons_of_mem _ h)
                apply ih rest _ (by omega)
                intro m hm md hfind f hf
                rcases List.mem_cons.mp hm with rfl | hm2
                · rw [hfind0] at hfind; cases hfind
                · have hold := hJ m hm2 md hfind f hf
                  constructor
                  · intro n hmr
                    rcases hold.1 n hmr with hin | hstk
                    · exact Or.inl (List.mem_cons_of_mem _ hin)
                    · rcases List.mem_cons.mp hstk with heq | hr
                      · cases heq; exact Or.inl (List.mem_cons_self _ _)
                      · exact Or.inr hr
                  · intro e her
                    rcases hold.2 e her with hin | hstk
                    · exact Or.inl hin
                    · rcases List.mem_cons.mp hstk with heq | hr
                      · cases heq
                      · exact Or.inr hr
            | some md0 =>
                have hlt := @stackMeasure_expand corpus s n0 md0 rest hn hfind0
                apply ih (md0.fields.flatMap fieldTasks ++ rest) _ (by omega)
                intro m hm md hfind f hf
                rcases List.mem_cons.mp hm with rfl | hm2
                · rw [hfind0] at hfind
                  cases hfind
                  constructor
                  · intro n hmr
                    exact Or.inr (List.mem_append_left _
                      (List.mem_flatMap.mpr ⟨f, hf, fieldTasks_msg hmr⟩))
                  · intro e her
                    exact Or.inr (List.mem_append_left _
                      (List.mem_flatMap.mpr ⟨f, hf, fieldTasks_enum her⟩))
                · have hold := hJ m hm2 md hfind f hf
                  constructor
                  · intro n hmr
                    rcases hold.1 n hmr with hin | hstk
                    · exact Or.inl (List.mem_cons_of_mem _ hin)
                    · rcases List.mem_cons.mp hstk with heq | hr
                      · cases heq; exact Or.inl (List.mem_cons_self _ _)
                      · exact Or.inr (List.mem_append_right _ hr)
                  · intro e her
                    rcases hold.2 e her with hin | hstk
                    · exact Or.inl hin
                    · rcases List.mem_cons.mp hstk with heq | hr
                      · cases heq
                      · exact Or.inr (List.mem_append_right _ hr)

theorem stackMeasure_single_le_topFuel (corpus : List MessageD) (n : String) (s : TState) :
    stackMeasure corpus [DepTask.visitMsg n] s ≤ topFuel corpus := by
  unfold stackMeasure topFuel
  have h1 : unvisited corpus s ≤ corpus.length := by
    unfold unvisited
    calc ((corpus.map MessageD.name).toFinset \ s.requiredMessages.toFinset).card
        ≤ (corpus.map MessageD.name).toFinset.card :=
          Finset.card_le_card (Finset.sdiff_subset)
      _ ≤ (corpus.map MessageD.name).length := List.toFinset_card_le _
      _ = corpus.length := List.length_map _ _
  have h2 : weight corpus * unvisited corpus s ≤ weight corpus * corpus.length :=
    Nat.mul_le_mul_left _ h1
  simp only [List.length_cons, List.length_nil]
  omega

theorem collectDependencies_mono (corpus : List MessageD) (n : String) (s : TState) :
    s.requiredMessages ⊆ (collectDependencies corpus n s).requiredMessages ∧
    s.requiredEnums ⊆ (collectDependencies corpus n s).requiredEnums :=
  collectLoop_mono corpus (topFuel corpus) [DepTask.visitMsg n] s

theorem collectDependencies_mem (corpus : List MessageD) (n : String) (s : TState) :
    n ∈ (collectDependencies corpus n s).requiredMessages :=
  (collectLoop_mem corpus (topFuel corpus) [DepTask.visitMsg n] s
    (stackMeasure_single_le_topFuel corpus n s)).1 n (List.mem_cons_self _ _)

theorem collectDependencies_closed {corpus : List MessageD} {s : TState}
    (n : String) (h : stateClosed corpus s) :
    stateClosed corpus (collectDependencies corpus n s) := by
  apply collectLoop_closed corpus (topFuel corpus) [DepTask.visitMsg n] s
    (stackMeasure_single_le_topFuel corpus n s)
  intro m hm md hfind f hf
  have hold := h m hm md hfind f hf
  constructor
  · intro n2 hn2
    rcases hold.1 n2 hn2 with hin | hstk
    · exact Or.inl hin
    · cases hstk
  · intro e he
    rcases hold.2 e he with hin | hstk
    · exact Or.inl hin
    · cases hstk

theorem collectDependencies_nodup {corpus : List MessageD} {s : TState} (n : String)
    (h1 : s.requiredMessages.Nodup) (h2 : s.requiredEnums.Nodup) :
    (collectDependencies corpus n s).requiredMessages.Nodup ∧
    (collectDependencies corpus n s).requiredEnums.Nodup :=
  collectLoop_nodup corpus (topFuel corpus) [DepTask.visitMsg n] s h1 h2

/-- Revisiting an already-collected record type is a no-op (the early return
of `collectDependencies` on the visited-check). -/
theorem collectDependencies_visited {corpus : List MessageD} {n : String} {s : TState}
    (h : n ∈ s.requiredMessages) : collectDependencies corpus n s = s := by
  unfold collectDependencies topFuel
  rw [collectLoop]
  simp only [if_pos h]
  exact collectLoop_nil _ _ _

theorem seedMethod_mono (corpus : List MessageD) (s : TState) (mr : MethodRef) :
    s.requiredMessages ⊆ (seedMethod corpus s mr).requiredMessages ∧
    s.requiredEnums ⊆ (seedMethod corpus s mr).requiredEnums := by
  unfold seedMethod
  have h1 := collectDependencies_mono corpus mr.m.inputType s
  have h2 := collectDependencies_mono corpus mr.m.outputType
    (collectDependencies corpus mr.m.inputType s)
  exact ⟨fun _ h => h2.1 (h1.1 h), fun _ h => h2.2 (h1.2 h)⟩

theorem seedAll_mono (corpus : List MessageD) (methods : List MethodRef) :
    ∀ (s : TState),
      s.requiredMessages ⊆ (seedAll corpus methods s).requiredMessages ∧
      s.requiredEnums ⊆ (seedAll corpus methods s).requiredEnums := by
  induction methods with
  | nil => intro s; exact ⟨fun _ h => h, fun _ h => h⟩
  | cons mr rest ih =>
      intro s
      have h1 := seedMethod_mono corpus s mr
      have h2 := ih (seedMethod corpus s mr)
      exact ⟨fun _ h => h2.1 (h1.1 h), fun _ h => h2.2 (h1.2 h)⟩

theorem seedMethod_closed {corpus : List MessageD} {s : TState} (mr : MethodRef)
    (h : stateClosed corpus s) : stateClosed corpus (seedMethod corpus s mr) :=
  collectDependencies_closed _ (collectDependencies_closed _ h)

theorem seedAll_closed {corpus : List MessageD} (methods : List MethodRef) :
    ∀ {s : TState}, stateClosed corpus s → stateClosed corpus (seedAll corpus methods s) := by
  induction methods with
  | nil => intro s h; exact h
  | cons mr rest ih => intro s h; exact ih (seedMethod_closed mr h)

theorem seedMethod_mem (corpus : List MessageD) (s : TState) (mr : MethodRef) :
    mr.m.inputType ∈ (seedMethod corpus s mr).requiredMessages ∧
    mr.m.outputType ∈ (seedMethod corpus s mr).requiredMessages := by
  unfold seedMethod
  constructor
  · exact (collectDependencies_mono corpus mr.m.outputType _).1
      (collectDependencies_mem corpus mr.m.inputType s)
  · exact collectDependencies_mem corpus mr.m.outputType _

theorem seedAll_mem {corpus : List MessageD} {methods : List MethodRef} {mr : MethodRef}
    (hmr : mr ∈ methods) :
    ∀ (s : TState),
      mr.m.inputType ∈ (seedAll corpus methods s).requiredMessages ∧
      mr.m.outputType ∈ (seedAll corpus methods s).requiredMessages := by
  induction methods with
  | nil => cases hmr
  | cons mr0 rest ih =>
      intro s
      rcases List.mem_cons.mp hmr with rfl | hmem
      · have h1 := seedMethod_mem corpus s mr
        have h2 := seedAll_mono corpus rest (seedMethod corpus s mr)
        exact ⟨h2.1 h1.1, h2.1 h1.2⟩
      · exact ih hmem (seedMethod corpus s mr0)

theorem stateClosed_initial (corpus : List MessageD) : stateClosed corpus initialState := by
  intro m hm
  cases hm

theorem seedAll_nodup {corpus : List MessageD} (methods : List MethodRef) :
    ∀ {s : TState}, s.requiredMessages.Nodup → s.requiredEnums.Nodup →
      (seedAll corpus methods s).requiredMessages.Nodup ∧
      (seedAll corpus methods s).requiredEnums.Nodup := by
  induction methods with
  | nil => intro s h1 h2; exact ⟨h1, h2⟩
  | cons mr rest ih =>
      intro s h1 h2
      have hm := @collectDependencies_nodup corpus s mr.m.inputType h1 h2
      have hm2 := @collectDependencies_nodup corpus
        (collectDependencies corpus mr.m.inputType s) mr.m.outputType hm.1 hm.2
      exact ih hm2.1 hm2.2

/-- Re-seeding a method whose input and output types are already collected
does not change the state. -/
theorem seedMethod_noop {corpus : List MessageD} {s : TState} {mr : MethodRef}
    (h1 : mr.m.inputType ∈ s.requiredMessages)
    (h2 : mr.m.outputType ∈ s.requiredMessages) :
    seedMethod corpus s mr = s := by
  unfold seedMethod
  rw [collectDependencies_visited h1, collectDependencies_visited h2]

theorem trimWithMethods_nonwarn {fds : List FileD} {methods : List MethodRef} {b : Bool}
    (h : (methods.isEmpty && b) = false) :
    trimWithMethods fds methods b =
      ⟨(keptFiles fds methods).map
        (filterFileDescriptor (finalState fds methods) methods (keptFileNames fds methods)),
       false⟩ := by
  unfold trimWithMethods keptFileNames keptFiles finalState
  simp only [h, Bool.false_eq_true, if_false]

theorem mem_trim_files_iff {fds : List FileD} {methods : List MethodRef} {b : Bool}
    {pf : FilePruned} (h : (methods.isEmpty && b) = false) :
    pf ∈ (trimWithMethods fds methods b).files ↔
      ∃ fd ∈ fds, isFileRequired (finalState fds methods) methods fd = true ∧
        pf = filterFileDescriptor (finalState fds methods) methods
          (keptFileNames fds methods) fd := by
  rw [trimWithMethods_nonwarn h]
  simp only [List.mem_map, keptFiles, List.mem_filter]
  constructor
  · rintro ⟨fd, ⟨hmem, hreq⟩, rfl⟩
    exact ⟨fd, hmem, hreq, rfl⟩
  · rintro ⟨fd, hmem, hreq, rfl⟩
    exact ⟨fd, ⟨hmem, hreq⟩, rfl⟩

/-- C2: when selectors were supplied but the aggregate resolved-method list
came out empty, the run does not fail: it returns the empty output mapping
and fires the warning (`runTrim`, the early-return guard before file
filtering). -/
theorem noMethodsResolved_warns (fds : List FileD) :
    trimWithMethods fds [] true = ⟨[], true⟩ := rfl

/-- C4: a parsed file is retained iff it owns the service of a resolved
entry method (the method's owning file), a required record type, or a
required enum type; and the retention decision is taken once, against the
state left by the completed closure collection. -/
theorem file_retention_rule (fds : List FileD) (methods : List MethodRef) (b : Bool)
    (hne : (methods.isEmpty && b) = false) :
    ((trimWithMethods fds methods b).files =
      (keptFiles fds methods).map
        (filterFileDescriptor (finalState fds methods) methods (keptFileNames fds methods))) ∧
    (∀ fd : FileD,
      isFileRequired (finalState fds methods) methods fd = true ↔
        (∃ mr ∈ methods, mr.fileName = fd.name) ∨
        (∃ m ∈ fd.messages, m.name ∈ (finalState fds methods).requiredMessages) ∨
        (∃ e ∈ fd.enums, e ∈ (finalState fds methods).requiredEnums)) := by
  constructor
  · rw [trimWithMethods_nonwarn hne]
  · intro fd
    unfold isFileRequired
    simp only [Bool.or_eq_true, List.any_eq_true, beq_iff_eq]
    constructor
    · rintro ((⟨mr, hm, he⟩ | ⟨m, hm, he⟩) | ⟨e, hm, he⟩)
      · exact Or.inl ⟨mr, hm, he⟩
      · exact Or.inr (Or.inl ⟨m, hm, by simpa using he⟩)
      · exact Or.inr (Or.inr ⟨e, hm, by simpa using he⟩)
    · rintro (⟨mr, hm, he⟩ | ⟨m, hm, he⟩ | ⟨e, hm, he⟩)
      · exact Or.inl (Or.inl ⟨mr, hm, he⟩)
      · exact Or.inl (Or.inr ⟨m, hm, by simpa using he⟩)
      · exact Or.inr ⟨e, hm, by simpa using he⟩

theorem trimWithMethods_warn {fds : List FileD} {methods : List MethodRef} {b : Bool}
    (h : (methods.isEmpty && b) = true) : trimWithMethods fds methods b = ⟨[], true⟩ := by
  unfold trimWithMethods
  simp only [h, if_true]

theorem filterFileDescriptor_name (st : TState) (methods : List MethodRef)
    (keptNames : List String) (fd : FileD) :
    (filterFileDescriptor st methods keptNames fd).name = fd.name := rfl

/-- C5: every import edge listed in a pruned descriptor targets a file that
is itself part of the output, and a retained file's pruned import list is
exactly its original import list restricted to retained targets (imports of
dropped files are silently removed). -/
theorem import_soundness (fds : List FileD) (methods : List MethodRef) (b : Bool) :
    (∀ pf ∈ (trimWithMethods fds methods b).files,
      ∀ d ∈ pf.dependency,
        ∃ pf2 ∈ (trimWithMethods fds methods b).files, pf2.name = d) ∧
    (∀ fd ∈ fds, isFileRequired (finalState fds methods) methods fd = true →
      (filterFileDescriptor (finalState fds methods) methods
          (keptFileNames fds methods) fd).dependency =
        fd.deps.filter (fun d => (keptFileNames fds methods).contains d)) := by
  constructor
  · intro pf hpf d hd
    cases hcond : (methods.isEmpty && b) with
    | true =>
        rw [trimWithMethods_warn hcond] at hpf
        cases hpf
    | false =>
        rw [mem_trim_files_iff hcond] at hpf
        obtain ⟨fd, hmem, hreq, rfl⟩ := hpf
        have hdep : d ∈ fd.deps.filter
            (fun d => (keptFileNames fds methods).contains d) := hd
        have hkept : d ∈ keptFileNames fds methods := by
          have := (List.mem_filter.mp hdep).2
          simpa using this
        unfold keptFileNames at hkept
        obtain ⟨fd2, hfd2, hname⟩ := List.mem_map.mp hkept
        have hfd2' := List.mem_filter.mp hfd2
        refine ⟨filterFileDescriptor (finalState fds methods) methods
          (keptFileNames fds methods) fd2, ?_, hname⟩
        rw [mem_trim_files_iff hcond]
        exact ⟨fd2, hfd2'.1, hfd2'.2, rfl⟩
  · intro fd _ _
    rfl

/-- C6: dependency collection terminates on arbitrary (also cyclic) type
graphs — any fuel at or above the measure yields the same drained result —
each fully-qualified name enters its required set at most once (the sets
stay duplicate-free), and the self-referencing record type of the direct
cycle scenario is kept exactly once in the output. -/
theorem closure_terminates_and_collects_once :
    (∀ (corpus : List MessageD) (n : String) (s : TState),
      s.requiredMessages.Nodup → s.requiredEnums.Nodup →
      (collectDependencies corpus n s).requiredMessages.Nodup ∧
      (collectDependencies corpus n s).requiredEnums.Nodup) ∧
    (∀ (corpus : List MessageD) (f1 f2 : Nat) (stack : List DepTask) (s : TState),
      stackMeasure corpus stack s ≤ f1 → stackMeasure corpus stack s ≤ f2 →
      collectLoop corpus f1 stack s = collectLoop corpus f2 stack s) ∧
    ((trimWithMethods [cycFile] [cycRef] true).files.flatMap
        (fun pf => pf.messageType.map MessageD.name)).count "pkg.A" = 1 := by
  refine ⟨?_, ?_, ?_⟩
  · intro corpus n s h1 h2
    exact collectDependencies_nodup n h1 h2
  · intro corpus f1 f2 stack s h1 h2
    exact collectLoop_irrel corpus f1 stack s f2 h1 h2
  · decide

/-- Witness for C6 at concrete inputs. -/
theorem closure_terminates_witness :
    (((collectDependencies [cycMsg] "pkg.A" initialState).requiredMessages.Nodup ∧
      (collectDependencies [cycMsg] "pkg.A" initialState).requiredEnums.Nodup)) ∧
    collectLoop [cycMsg] 5 [] initialState = collectLoop [cycMsg] 7 [] initialState :=
  ⟨closure_terminates_and_collects_once.1 [cycMsg] "pkg.A" initialState
      (by decide) (by decide),
   closure_terminates_and_collects_once.2.1 [cycMsg] 5 7 [] initialState
      (by decide) (by decide)⟩

/-- C8 counterexample: resolving the same method twice changes the produced
output — the rebuilt service lists the method once per occurrence — so
duplicates are not harmless for the output content. -/
theorem duplicate_resolution_changes_output :
    trimWithMethods [cycFile] [cycRef, cycRef] true ≠
      trimWithMethods [cycFile] [cycRef] true := by decide

theorem any_append_self {α : Type} {mr : α} {ms : List α} (p : α → Bool) (hmr : mr ∈ ms) :
    (ms ++ [mr]).any p = ms.any p := by
  rw [List.any_append]
  cases hp : p mr with
  | true =>
      have : ms.any p = true := List.any_eq_true.mpr ⟨mr, hmr, hp⟩
      simp [this, hp]
  | false => simp [hp]

theorem isFileRequired_dup {st : TState} {methods : List MethodRef} {mr : MethodRef}
    (hmr : mr ∈ methods) (fd : FileD) :
    isFileRequired st (methods ++ [mr]) fd = isFileRequired st methods fd := by
  unfold isFileRequired
  rw [any_append_self _ hmr]

/-- C8 amended: duplicates in the resolved-method list leave the computed
required-type closure and the retained-file set unchanged (the closure
collector's visited-check makes re-seeding a no-op, and file retention only
tests membership), even though the pruned service content is sensitive to
them. -/
theorem duplicate_resolution_harmless_for_sets (fds : List FileD)
    (methods : List MethodRef) (mr : MethodRef) (hmr : mr ∈ methods) (b : Bool) :
    finalState fds (methods ++ [mr]) = finalState fds methods ∧
    keptFiles fds (methods ++ [mr]) = keptFiles fds methods ∧
    (trimWithMethods fds (methods ++ [mr]) b).files.map FilePruned.name =
      (trimWithMethods fds methods b).files.map FilePruned.name := by
  have hstate : finalState fds (methods ++ [mr]) = finalState fds methods := by
    unfold finalState seedAll
    rw [List.foldl_append]
    have hmem := @seedAll_mem (allMessages fds) methods mr hmr initialState
    exact seedMethod_noop hmem.1 hmem.2
  have hkept : keptFiles fds (methods ++ [mr]) = keptFiles fds methods := by
    unfold keptFiles
    rw [hstate]
    apply List.filter_congr
    intro fd _
    exact isFileRequired_dup hmr fd
  refine ⟨hstate, hkept, ?_⟩
  have hnil : methods.isEmpty = false := by
    cases methods with
    | nil => cases hmr
    | cons a l => rfl
  have hnil2 : (methods ++ [mr]).isEmpty = false := by
    cases methods <;> rfl
  rw [trimWithMethods_nonwarn (by rw [hnil2]; rfl),
      trimWithMethods_nonwarn (by rw [hnil]; rfl)]
  simp only [List.map_map, hkept]
  rfl

/-- Witness for the amended C8 theorem at a concrete input. -/
theorem duplicate_resolution_harmless_witness :
    finalState [cycFile] ([cycRef] ++ [cycRef]) = finalState [cycFile] [cycRef] ∧
    keptFiles [cycFile] ([cycRef] ++ [cycRef]) = keptFiles [cycFile] [cycRef] ∧
    (trimWithMethods [cycFile] ([cycRef] ++ [cycRef]) true).files.map FilePruned.name =
      (trimWithMethods [cycFile] [cycRef] true).files.map FilePruned.name :=
  duplicate_resolution_harmless_for_sets [cycFile] [cycRef] cycRef (by decide) true

theorem isPrefixChars_iff : ∀ (a b : List Char), isPrefixChars a b = true ↔ a <+: b := by
  intro a
  induction a with
  | nil => intro b; simp [isPrefixChars]
  | cons x xs ih =>
      intro b
      cases b with
      | nil => simp [isPrefixChars]
      | cons y ys =>
          rw [isPrefixChars]
          simp only [Bool.and_eq_true, beq_iff_eq, List.cons_prefix_cons]
          exact and_congr Iff.rfl (ih ys)

theorem containsChars_iff : ∀ (hay pat : List Char), containsChars hay pat = true ↔ pat <:+: hay := by
  intro hay
  induction hay with
  | nil =>
      intro pat
      rw [containsChars, isPrefixChars_iff]
      simp [List.infix_nil, List.prefix_nil]
  | cons c t ih =>
      intro pat
      rw [containsChars]
      simp only [Bool.or_eq_true, isPrefixChars_iff, ih, List.infix_cons_iff]

/-- Go `strings.Contains` agrees with contiguous-substring occurrence on the
character sequences. -/
theorem strContains_iff (s pat : String) :
    strContains s pat = true ↔ pat.data <:+: s.data :=
  containsChars_iff s.data pat.data

theorem findQualified_none_iff (sel : String) :
    ∀ (af : List FileD),
      findQualified af sel = none ↔
        ∀ fd ∈ af, ∀ svc k m, findSymbolD fd sel ≠ some (SymbolD.methodSym svc k m) := by
  intro af
  induction af with
  | nil => simp [findQualified]
  | cons fd rest ih =>
      rw [findQualified]
      cases hsym : findSymbolD fd sel with
      | none =>
          simp only [ih]
          constructor
          · intro h fd2 hmem svc k m
            rcases List.mem_cons.mp hmem with rfl | hmem2
            · rw [hsym]; intro hc; cases hc
            · exact h fd2 hmem2 svc k m
          · intro h fd2 hmem svc k m
            exact h fd2 (List.mem_cons_of_mem _ hmem) svc k m
      | some sym =>
          cases sym with
          | methodSym svc i m =>
              constructor
              · intro h; cases h
              · intro h
                exact absurd hsym (h fd (List.mem_cons_self _ _) svc i m)
          | msgSym m2 =>
              simp only [ih]
              constructor
              · intro h fd2 hmem svc k m
                rcases List.mem_cons.mp hmem with rfl | hmem2
                · rw [hsym]; intro hc; cases hc
                · exact h fd2 hmem2 svc k m
              · intro h fd2 hmem svc k m
                exact h fd2 (List.mem_cons_of_mem _ hmem) svc k m
          | enumSym e =>
              simp only [ih]
              constructor
              · intro h fd2 hmem svc k m
                rcases List.mem_cons.mp hmem with rfl | hmem2
                · rw [hsym]; intro hc; cases hc
                · exact h fd2 hmem2 svc k m
              · intro h fd2 hmem svc k m
                exact h fd2 (List.mem_cons_of_mem _ hmem) svc k m
          | svcSym s2 =>
              simp only [ih]
              constructor
              · intro h fd2 hmem svc k m
                rcases List.mem_cons.mp hmem with rfl | hmem2
                · rw [hsym]; intro hc; cases hc
                · exact h fd2 hmem2 svc k m
              · intro h fd2 hmem svc k m
                exact h fd2 (List.mem_cons_of_mem _ hmem) svc k m

theorem findQualified_skip {fd : FileD} {sel : String} (rest : List FileD)
    (h : ∀ svc k m, findSymbolD fd sel ≠ some (SymbolD.methodSym svc k m)) :
    findQualified (fd :: rest) sel = findQualified rest sel := by
  rw [findQualified]
  cases hsym : findSymbolD fd sel with
  | none => rfl
  | some sym =>
      cases sym with
      | methodSym svc i m => exact absurd hsym (h svc i m)
      | msgSym m2 => rfl
      | enumSym e => rfl
      | svcSym s2 => rfl

theorem findQualified_some {sel : String} {mr : MethodRef} :
    ∀ {af : List FileD}, findQualified af sel = some mr →
      ∃ (i : Nat) (fd : FileD) (svc : ServiceD) (k : Nat) (m : MethodD),
        af[i]? = some fd ∧
        findSymbolD fd sel = some (SymbolD.methodSym svc k m) ∧
        mr = ⟨fd.name, svc, k, m⟩ ∧
        (∀ j : Nat, j < i → ∀ fd2, af[j]? = some fd2 →
          ∀ svc2 k2 m2, findSymbolD fd2 sel ≠ some (SymbolD.methodSym svc2 k2 m2)) := by
  intro af
  induction af with
  | nil => intro h; cases h
  | cons fd rest ih =>
      intro h
      rw [findQualified] at h
      cases hsym : findSymbolD fd sel with
      | some sym =>
          cases sym with
          | methodSym svc i m =>
              rw [hsym] at h
              cases h
              exact ⟨0, fd, svc, i, m, by simp, hsym, rfl, by intro j hj; omega⟩
          | msgSym m2 =>
              rw [hsym] at h
              obtain ⟨i, fd2, svc, k, m, hget, hs, hmr, hfirst⟩ := ih h
              refine ⟨i + 1, fd2, svc, k, m, by simpa using hget, hs, hmr, ?_⟩
              intro j hj fd3 hget3 svc3 k3 m3
              cases j with
              | zero =>
                  simp only [List.getElem?_cons_zero] at hget3
                  cases hget3
                  rw [hsym]; intro hc; cases hc
              | succ j =>
                  simp only [List.getElem?_cons_succ] at hget3
                  exact hfirst j (by omega) fd3 hget3 svc3 k3 m3
          | enumSym e =>
              rw [hsym] at h
              obtain ⟨i, fd2, svc, k, m, hget, hs, hmr, hfirst⟩ := ih h
              refine ⟨i + 1, fd2, svc, k, m, by simpa using hget, hs, hmr, ?_⟩
              intro j hj fd3 hget3 svc3 k3 m3
              cases j with
              | zero =>
                  simp only [List.getElem?_cons_zero] at hget3
                  cases hget3
                  rw [hsym]; intro hc; cases hc
              | succ j =>
                  simp only [List.getElem?_cons_succ] at hget3
                  exact hfirst j (by omega) fd3 hget3 svc3 k3 m3
          | svcSym s2 =>
              rw [hsym] at h
              obtain ⟨i, fd2, svc, k, m, hget, hs, hmr, hfirst⟩ := ih h
              refine ⟨i + 1, fd2, svc, k, m, by simpa using hget, hs, hmr, ?_⟩
              intro j hj fd3 hget3 svc3 k3 m3
              cases j with
              | zero =>
                  simp only [List.getElem?_cons_zero] at hget3
                  cases hget3
                  rw [hsym]; intro hc; cases hc
              | succ j =>
                  simp only [List.getElem?_cons_succ] at hget3
                  exact hfirst j (by omega) fd3 hget3 svc3 k3 m3
      | none =>
          rw [hsym] at h
          obtain ⟨i, fd2, svc, k, m, hget, hs, hmr, hfirst⟩ := ih h
          refine ⟨i + 1, fd2, svc, k, m, by simpa using hget, hs, hmr, ?_⟩
          intro j hj fd3 hget3 svc3 k3 m3
          cases j with
          | zero =>
              simp only [List.getElem?_cons_zero] at hget3
              cases hget3
              rw [hsym]; intro hc; cases hc
          | succ j =>
              simp only [List.getElem?_cons_succ] at hget3
              exact hfirst j (by omega) fd3 hget3 svc3 k3 m3

theorem enum_find?_name_none {ms : List MethodD} {mn : String} :
    ms.enum.find? (fun p => p.2.name == mn) = none ↔ ∀ m ∈ ms, m.name ≠ mn := by
  rw [List.find?_eq_none]
  constructor
  · intro h m hm heq
    obtain ⟨i, hi⟩ := List.mem_iff_getElem?.mp hm
    have hmem : (i, m) ∈ ms.enum := List.mk_mem_enum_iff_getElem?.mpr hi
    have := h _ hmem
    simp [heq] at this
  · rintro h ⟨i, m⟩ hp
    have hi := List.mk_mem_enum_iff_getElem?.mp hp
    have hm : m ∈ ms := List.mem_iff_getElem?.mpr ⟨i, hi⟩
    simp [h m hm]

theorem findInServices_none_iff {fdn sn mn : String} :
    ∀ {svcs : List ServiceD},
      findInServices fdn svcs sn mn = none ↔
        ∀ svc ∈ svcs, svc.name = sn → ∀ m ∈ svc.methods, m.name ≠ mn := by
  intro svcs
  induction svcs with
  | nil => simp [findInServices]
  | cons svc rest ih =>
      rw [findInServices]
      by_cases hn : svc.name = sn
      · simp only [if_pos (beq_iff_eq.mpr hn)]
        cases hfind : svc.methods.enum.find? (fun p => p.2.name == mn) with
        | some p =>
            constructor
            · intro h; cases h
            · intro h
              have h2 : svc.methods.enum.find? (fun p => p.2.name == mn) = none := by
                rw [enum_find?_name_none]
                exact h svc (List.mem_cons_self _ _) hn
              rw [hfind] at h2; cases h2
        | none =>
            rw [ih]
            have hnone := enum_find?_name_none.mp hfind
            constructor
            · intro h svc2 hmem hname m hm
              rcases List.mem_cons.mp hmem with rfl | hmem2
              · exact hnone m hm
              · exact h svc2 hmem2 hname m hm
            · intro h svc2 hmem hname m hm
              exact h svc2 (List.mem_cons_of_mem _ hmem) hname m hm
      · simp only [if_neg (fun hc => hn (beq_iff_eq.mp hc))]
        rw [ih]
        constructor
        · intro h svc2 hmem hname m hm
          rcases List.mem_cons.mp hmem with rfl | hmem2
          · exact absurd hname hn
          · exact h svc2 hmem2 hname m hm
        · intro h svc2 hmem hname m hm
          exact h svc2 (List.mem_cons_of_mem _ hmem) hname m hm

theorem findInServices_some {fdn sn mn : String} {mr : MethodRef} :
    ∀ {svcs : List ServiceD}, findInServices fdn svcs sn mn = some mr →
      mr.fileName = fdn ∧ ∃ svc ∈ svcs, mr.svc = svc ∧ svc.name = sn ∧
        svc.methods[mr.mIdx]? = some mr.m ∧ mr.m.name = mn := by
  intro svcs
  induction svcs with
  | nil => intro h; cases h
  | cons svc rest ih =>
      intro h
      rw [findInServices] at h
      by_cases hn : svc.name = sn
      · rw [if_pos (beq_iff_eq.mpr hn)] at h
        cases hfind : svc.methods.enum.find? (fun p => p.2.name == mn) with
        | some p =>
            rw [hfind] at h
            cases h
            have hpred := List.find?_some hfind
            have hmem := List.mem_of_find?_eq_some hfind
            have hi := List.mk_mem_enum_iff_getElem?.mp (by
              have : (p.1, p.2) = p := rfl
              rw [this]; exact hmem)
            refine ⟨rfl, svc, List.mem_cons_self _ _, rfl, hn, hi, ?_⟩
            simpa using hpred
        | none =>
            rw [hfind] at h
            obtain ⟨h1, svc2, hmem, h3⟩ := ih h
            exact ⟨h1, svc2, List.mem_cons_of_mem _ hmem, h3⟩
      · rw [if_neg (fun hc => hn (beq_iff_eq.mp hc))] at h
        obtain ⟨h1, svc2, hmem, h3⟩ := ih h
        exact ⟨h1, svc2, List.mem_cons_of_mem _ hmem, h3⟩

theorem findServiceMethod_none_iff {sn mn : String} :
    ∀ {ef : List FileD},
      findServiceMethod ef sn mn = none ↔
        ∀ fd ∈ ef, ∀ svc ∈ fd.services, svc.name = sn → ∀ m ∈ svc.methods, m.name ≠ mn := by
  intro ef
  induction ef with
  | nil => simp [findServiceMethod]
  | cons fd rest ih =>
      rw [findServiceMethod]
      cases hfind : findInServices fd.name fd.services sn mn with
      | some r =>
          constructor
          · intro h; cases h
          · intro h
            have h2 : findInServices fd.name fd.services sn mn = none := by
              rw [findInServices_none_iff]
              exact h fd (List.mem_cons_self _ _)
            rw [hfind] at h2; cases h2
      | none =>
          rw [ih]
          have hnone := findInServices_none_iff.mp hfind
          constructor
          · intro h fd2 hmem
            rcases List.mem_cons.mp hmem with rfl | hmem2
            · exact hnone
            · exact h fd2 hmem2
          · intro h fd2 hmem
            exact h fd2 (List.mem_cons_of_mem _ hmem)

theorem findServiceMethod_some {sn mn : String} {mr : MethodRef} :
    ∀ {ef : List FileD}, findServiceMethod ef sn mn = some mr →
      ∃ fd ∈ ef, mr.fileName = fd.name ∧ ∃ svc ∈ fd.services, mr.svc = svc ∧
        svc.name = sn ∧ svc.methods[mr.mIdx]? = some mr.m ∧ mr.m.name = mn := by
  intro ef
  induction ef with
  | nil => intro h; cases h
  | cons fd rest ih =>
      intro h
      rw [findServiceMethod] at h
      cases hfind : findInServices fd.name fd.services sn mn with
      | some r =>
          rw [hfind] at h
          cases h
          obtain ⟨h1, svc, hmem, h3⟩ := findInServices_some hfind
          exact ⟨fd, List.mem_cons_self _ _, h1, svc, hmem, h3⟩
      | none =>
          rw [hfind] at h
          obtain ⟨fd2, hmem, h3⟩ := ih h
          exact ⟨fd2, List.mem_cons_of_mem _ hmem, h3⟩

theorem substrMatches_mem {ef : List FileD} {sel : String} {mr : MethodRef} :
    mr ∈ substrMatches ef sel ↔
      ∃ fd ∈ ef, ∃ svc ∈ fd.services, ∃ (i : Nat) (m : MethodD),
        svc.methods[i]? = some m ∧ strContains m.name sel = true ∧
        mr = ⟨fd.name, svc, i, m⟩ := by
  unfold substrMatches
  simp only [List.mem_flatMap, List.mem_map, List.mem_filter]
  constructor
  · rintro ⟨fd, hfd, svc, hsvc, ⟨i, m⟩, ⟨hmem, hsub⟩, rfl⟩
    exact ⟨fd, hfd, svc, hsvc, i, m, List.mk_mem_enum_iff_getElem?.mp hmem, hsub, rfl⟩
  · rintro ⟨fd, hfd, svc, hsvc, i, m, hget, hsub, rfl⟩
    exact ⟨fd, hfd, svc, hsvc, ⟨i, m⟩,
      ⟨List.mk_mem_enum_iff_getElem?.mpr hget, hsub⟩, rfl⟩

/-- C3: selector resolution follows the separator-count rule.  With two or
more dots, the selector is looked up as an exact fully-qualified symbol over
all reachable files, the first file yielding a method symbol wins, and no
match is a method-not-found error.  With exactly one dot, only the entry
files' services are searched for an exact service-name and method-name
match, and no match is a method-not-found error.  With zero dots, every
entry-file method whose simple name contains the selector as a
case-sensitive substring is collected. -/
theorem selector_resolution_modes (sel : String) (ef af : List FileD) :
    (dotCount sel ≥ 2 →
      (∀ l, findMethods sel ef af = Except.ok l →
        ∃ mr, l = [mr] ∧ findQualified af sel = some mr) ∧
      ((∀ fd ∈ af, ∀ svc k m, findSymbolD fd sel ≠ some (SymbolD.methodSym svc k m)) →
        findMethods sel ef af = Except.error (methodNotFoundMsg sel)) ∧
      (∀ mr, findQualified af sel = some mr →
        ∃ (i : Nat) (fd : FileD) (svc : ServiceD) (k : Nat) (m : MethodD),
          af[i]? = some fd ∧ findSymbolD fd sel = some (SymbolD.methodSym svc k m) ∧
          mr = ⟨fd.name, svc, k, m⟩ ∧
          (∀ j : Nat, j < i → ∀ fd2, af[j]? = some fd2 →
            ∀ svc2 k2 m2, findSymbolD fd2 sel ≠ some (SymbolD.methodSym svc2 k2 m2)))) ∧
    (dotCount sel = 1 →
      (∀ l, findMethods sel ef af = Except.ok l →
        ∃ mr, l = [mr] ∧ ∃ fd ∈ ef, mr.fileName = fd.name ∧ ∃ svc ∈ fd.services,
          mr.svc = svc ∧ svc.name = (splitString '.' sel).getD 0 "" ∧
          svc.methods[mr.mIdx]? = some mr.m ∧
          mr.m.name = (splitString '.' sel).getD 1 "") ∧
      ((∀ fd ∈ ef, ∀ svc ∈ fd.services, svc.name = (splitString '.' sel).getD 0 "" →
          ∀ m ∈ svc.methods, m.name ≠ (splitString '.' sel).getD 1 "") →
        findMethods sel ef af = Except.error (methodNotFoundMsg sel))) ∧
    (dotCount sel = 0 →
      (substrMatches ef sel ≠ [] →
        findMethods sel ef af = Except.ok (substrMatches ef sel)) ∧
      (substrMatches ef sel = [] →
        findMethods sel ef af = Except.error (methodNotFoundMsg sel)) ∧
      (∀ mr, mr ∈ substrMatches ef sel ↔
        ∃ fd ∈ ef, ∃ svc ∈ fd.services, ∃ (i : Nat) (m : MethodD),
          svc.methods[i]? = some m ∧ sel.data <:+: m.name.data ∧
          mr = ⟨fd.name, svc, i, m⟩)) := by
  refine ⟨?_, ?_, ?_⟩
  · intro h2
    have hunf : findMethods sel ef af =
        match findQualified af sel with
        | some mr => Except.ok [mr]
        | none => Except.error (methodNotFoundMsg sel) := by
      unfold findMethods
      rw [if_pos h2]
    refine ⟨?_, ?_, ?_⟩
    · intro l hl
      rw [hunf] at hl
      cases hq : findQualified af sel with
      | some mr => rw [hq] at hl; cases hl; exact ⟨mr, rfl, rfl⟩
      | none => rw [hq] at hl; cases hl
    · intro hnone
      rw [hunf, (findQualified_none_iff sel af).mpr hnone]
    · intro mr hq
      exact findQualified_some hq
  · intro h1
    have hne2 : ¬ dotCount sel ≥ 2 := by omega
    have heq1 : (dotCount sel == 1) = true := by simp [h1]
    have hunf : findMethods sel ef af =
        match findServiceMethod ef ((splitString '.' sel).getD 0 "")
            ((splitString '.' sel).getD 1 "") with
        | some mr => Except.ok [mr]
        | none => Except.error (methodNotFoundMsg sel) := by
      unfold findMethods
      rw [if_neg hne2, if_pos heq1]
    refine ⟨?_, ?_⟩
    · intro l hl
      rw [hunf] at hl
      cases hq : findServiceMethod ef ((splitString '.' sel).getD 0 "")
          ((splitString '.' sel).getD 1 "") with
      | some mr =>
          rw [hq] at hl; cases hl
          exact ⟨mr, rfl, findServiceMethod_some hq⟩
      | none => rw [hq] at hl; cases hl
    · intro hnone
      rw [hunf, findServiceMethod_none_iff.mpr hnone]
  · intro h0
    have hne2 : ¬ dotCount sel ≥ 2 := by omega
    have hne1 : (dotCount sel == 1) ≠ true := by simp [h0]
    have hunf : findMethods sel ef af =
        if (substrMatches ef sel).length > 0 then Except.ok (substrMatches ef sel)
        else Except.error (methodNotFoundMsg sel) := by
      unfold findMethods
      rw [if_neg hne2, if_neg hne1]
    refine ⟨?_, ?_, ?_⟩
    · intro hne
      rw [hunf, if_pos (by cases hm : substrMatches ef sel with
        | nil => exact absurd hm hne
        | cons a l => simp [hm])]
    · intro hm
      rw [hunf, hm]
      rfl
    · intro mr
      rw [substrMatches_mem]
      constructor
      · rintro ⟨fd, hfd, svc, hsvc, i, m, hget, hsub, rfl⟩
        exact ⟨fd, hfd, svc, hsvc, i, m, hget, (strContains_iff m.name sel).mp hsub, rfl⟩
      · rintro ⟨fd, hfd, svc, hsvc, i, m, hget, hsub, rfl⟩
        exact ⟨fd, hfd, svc, hsvc, i, m, hget, (strContains_iff m.name sel).mpr hsub, rfl⟩

/-- Witness for C3 at concrete selectors of each mode. -/
theorem selector_resolution_modes_witness :
    findMethods "Create" [wfileEntry] [wfileDecoy, wfileEntry] =
      Except.ok (substrMatches [wfileEntry] "Create") ∧
    findMethods "NoSuchSvc.M" [wfileEntry] [wfileDecoy, wfileEntry] =
      Except.error (methodNotFoundMsg "NoSuchSvc.M") ∧
    (∃ mr, [wmr0] = [mr] ∧
      findQualified [wfileDecoy, wfileEntry] "pkg.Svc.Delete" = some mr) :=
  ⟨((selector_resolution_modes "Create" [wfileEntry] [wfileDecoy, wfileEntry]).2.2
      (by decide)).1 (by decide),
   ((selector_resolution_modes "NoSuchSvc.M" [wfileEntry] [wfileDecoy, wfileEntry]).2.1
      (by decide)).2 (by decide),
   ((selector_resolution_modes "pkg.Svc.Delete" [wfileEntry]
      [wfileDecoy, wfileEntry]).1 (by decide)).1 [wmr0] (by decide)⟩

/-- C10: for a selector with two or more dots, resolution only ever returns
a genuine method symbol; a file whose lookup yields a non-method symbol is
passed over and the scan continues, ending in the method-not-found error if
no file yields a method. -/
theorem qualified_resolution_never_nonmethod (sel : String) (ef af : List FileD)
    (h2 : dotCount sel ≥ 2) :
    (∀ l, findMethods sel ef af = Except.ok l →
      ∃ mr, l = [mr] ∧ ∃ fd ∈ af, fd.name = mr.fileName ∧
        findSymbolD fd sel = some (SymbolD.methodSym mr.svc mr.mIdx mr.m)) ∧
    (∀ (fd : FileD) (rest : List FileD) (sym : SymbolD),
      findSymbolD fd sel = some sym →
      (∀ svc k m, sym ≠ SymbolD.methodSym svc k m) →
      findQualified (fd :: rest) sel = findQualified rest sel) ∧
    ((∀ fd ∈ af, ∀ svc k m, findSymbolD fd sel ≠ some (SymbolD.methodSym svc k m)) →
      findMethods sel ef af = Except.error (methodNotFoundMsg sel)) := by
  have hunf : findMethods sel ef af =
      match findQualified af sel with
      | some mr => Except.ok [mr]
      | none => Except.error (methodNotFoundMsg sel) := by
    unfold findMethods
    rw [if_pos h2]
  refine ⟨?_, ?_, ?_⟩
  · intro l hl
    rw [hunf] at hl
    cases hq : findQualified af sel with
    | some mr =>
        rw [hq] at hl
        cases hl
        obtain ⟨i, fd, svc, k, m, hget, hsym, hmr, _⟩ := findQualified_some hq
        subst hmr
        exact ⟨_, rfl, fd, List.mem_iff_getElem?.mpr ⟨i, hget⟩, rfl, hsym⟩
    | none => rw [hq] at hl; cases hl
  · intro fd rest sym hsym hnm
    rw [findQualified, hsym]
    cases sym with
    | methodSym svc i m => exact absurd rfl (hnm svc i m)
    | msgSym m2 => rfl
    | enumSym e => rfl
    | svcSym s2 => rfl
  · intro hnone
    rw [hunf, (findQualified_none_iff sel af).mpr hnone]

/-- Witness for C10 at the concrete decoy corpus. -/
theorem qualified_resolution_never_nonmethod_witness :
    (∃ mr, [wmr0] = [mr] ∧ ∃ fd ∈ [wfileDecoy, wfileEntry], fd.name = mr.fileName ∧
      findSymbolD fd "pkg.Svc.Delete" =
        some (SymbolD.methodSym mr.svc mr.mIdx mr.m)) ∧
    findQualified [wfileDecoy, wfileEntry] "pkg.Svc.Delete" =
      findQualified [wfileEntry] "pkg.Svc.Delete" ∧
    findMethods "pkg.Svc.Delete" [wfileEntry] [wfileDecoy] =
      Except.error (methodNotFoundMsg "pkg.Svc.Delete") :=
  ⟨(qualified_resolution_never_nonmethod "pkg.Svc.Delete" [wfileEntry]
      [wfileDecoy, wfileEntry] (by decide)).1 [wmr0] (by decide),
   (qualified_resolution_never_nonmethod "pkg.Svc.Delete" [wfileEntry]
      [wfileDecoy, wfileEntry] (by decide)).2.1 wfileDecoy [wfileEntry]
      (SymbolD.msgSym ⟨"pkg.Svc.Delete", []⟩) (by decide)
      (fun svc k m h => SymbolD.noConfusion h),
   (qualified_resolution_never_nonmethod "pkg.Svc.Delete" [wfileEntry]
      [wfileDecoy] (by decide)).2.2
      (by
        intro fd hfd svc k m hc
        have hfd2 : fd = wfileDecoy := by simpa using hfd
        subst hfd2
        have hval : findSymbolD wfileDecoy "pkg.Svc.Delete" =
            some (SymbolD.msgSym ⟨"pkg.Svc.Delete", []⟩) := by decide
        rw [hval] at hc
        simp at hc)⟩

/-- C7: when source-comment metadata is present the pruner rewrites every
location entry through the old-index to new-index maps built while
filtering: file-level and package-level entries are kept unconditionally and
unchanged; message, enum and service entries are re-indexed to the number of
kept elements before them and dropped when the referenced element was not
retained; method entries are additionally re-indexed against the owning
service's resolved-method list and dropped when the method was not
retained. -/
theorem location_reindexing (st : TState) (methods : List MethodRef)
    (keptNames : List String) (fd : FileD) :
    ((filterFileDescriptor st methods keptNames fd).sourceInfo =
      fd.locations.map (fun locs => locs.filterMap (rewriteLoc st methods fd))) ∧
    (∀ info, rewriteLoc st methods fd ⟨[], info⟩ = some ⟨[], info⟩) ∧
    (∀ rest info, rewriteLoc st methods fd ⟨1 :: rest, info⟩ = some ⟨1 :: rest, info⟩) ∧
    (∀ (i : Nat) (rest : List Nat) (info : String),
      rewriteLoc st methods fd ⟨4 :: i :: rest, info⟩ =
        match fd.messages[i]? with
        | some m =>
            if st.requiredMessages.contains m.name then
              some ⟨4 :: (fd.messages.take i).countP
                (fun m2 => st.requiredMessages.contains m2.name) :: rest, info⟩
            else none
        | none => none) ∧
    (∀ (i : Nat) (rest : List Nat) (info : String),
      rewriteLoc st methods fd ⟨5 :: i :: rest, info⟩ =
        match fd.enums[i]? with
        | some e =>
            if st.requiredEnums.contains e then
              some ⟨5 :: (fd.enums.take i).countP
                (fun e2 => st.requiredEnums.contains e2) :: rest, info⟩
            else none
        | none => none) ∧
    (∀ (i : Nat) (rest : List Nat) (info : String),
      (∀ (j : Nat) (rest2 : List Nat), rest ≠ 2 :: j :: rest2) →
      rewriteLoc st methods fd ⟨6 :: i :: rest, info⟩ =
        match newIndexAt (svcKeep methods fd.name) fd.services i with
        | some ni => some ⟨6 :: ni :: rest, info⟩
        | none => none) ∧
    (∀ (i j : Nat) (rest2 : List Nat) (info : String),
      rewriteLoc st methods fd ⟨6 :: i :: 2 :: j :: rest2, info⟩ =
        match newIndexAt (svcKeep methods fd.name) fd.services i, fd.services[i]? with
        | some ni, some svc =>
            if j < svc.methods.length then
              match methodNewIndex (resolvedForService methods fd.name svc.fullName) j with
              | some nj => some ⟨6 :: ni :: 2 :: nj :: rest2, info⟩
              | none => none
            else none
        | _, _ => none) := by
  refine ⟨rfl, fun info => rfl, fun rest info => rfl, ?_, ?_, ?_, ?_⟩
  · intro i rest info
    show (match newIndexAt (fun m => st.requiredMessages.contains m.name) fd.messages i with
      | some ni => some (⟨4 :: ni :: rest, info⟩ : LocationD)
      | none => none) = _
    unfold newIndexAt
    cases hget : fd.messages[i]? with
    | none => rfl
    | some m =>
        by_cases hk : st.requiredMessages.contains m.name
        · simp only [hk, if_true]
        · simp only [hk, Bool.false_eq_true, if_false]
  · intro i rest info
    show (match newIndexAt (fun e => st.requiredEnums.contains e) fd.enums i with
      | some ni => some (⟨5 :: ni :: rest, info⟩ : LocationD)
      | none => none) = _
    unfold newIndexAt
    cases hget : fd.enums[i]? with
    | none => rfl
    | some e =>
        by_cases hk : st.requiredEnums.contains e
        · simp only [hk, if_true]
        · simp only [hk, Bool.false_eq_true, if_false]
  · intro i rest info hrest
    show (match newIndexAt (svcKeep methods fd.name) fd.services i with
      | none => none
      | some ni =>
          match fd.services[i]? with
          | none => none
          | some svc =>
              match rest with
              | 2 :: j :: rest2 =>
                  if j < svc.methods.length then
                    match methodNewIndex
                        (resolvedForService methods fd.name svc.fullName) j with
                    | some nj => some (⟨6 :: ni :: 2 :: nj :: rest2, info⟩ : LocationD)
                    | none => none
                  else none
              | _ => some (⟨6 :: ni :: rest, info⟩ : LocationD)) = _
    cases hni : newIndexAt (svcKeep methods fd.name) fd.services i with
    | none => rfl
    | some ni =>
        cases hsvc : fd.services[i]? with
        | none =>
            unfold newIndexAt at hni
            rw [hsvc] at hni
            cases hni
        | some svc =>
            cases rest with
            | nil => rfl
            | cons x rest1 =>
                rcases x with _ | (_ | (_ | n))
                · rfl
                · rfl
                · cases rest1 with
                  | nil => rfl
                  | cons y rest2 => exact absurd rfl (hrest y rest2)
                · rfl
  · intro i j rest2 info
    show (match newIndexAt (svcKeep methods fd.name) fd.services i with
      | none => none
      | some ni =>
          match fd.services[i]? with
          | none => none
          | some svc =>
              if j < svc.methods.length then
                match methodNewIndex
                    (resolvedForService methods fd.name svc.fullName) j with
                | some nj => some (⟨6 :: ni :: 2 :: nj :: rest2, info⟩ : LocationD)
                | none => none
              else none) = _
    cases hni : newIndexAt (svcKeep methods fd.name) fd.services i with
    | none => rfl
    | some ni =>
        cases hsvc : fd.services[i]? with
        | none => rfl
        | some svc => rfl

/-- Witness for C7 at a concrete service-level location entry. -/
theorem location_reindexing_witness :
    rewriteLoc (finalState [cycFile] [cycRef]) [cycRef] cycFile ⟨[6, 0], "c"⟩ =
      match newIndexAt (svcKeep [cycRef] cycFile.name) cycFile.services 0 with
      | some ni => some ⟨6 :: ni :: [], "c"⟩
      | none => none :=
  (location_reindexing (finalState [cycFile] [cycRef]) [cycRef] [] cycFile).2.2.2.2.2.1
    0 [] "c" (fun _ _ h => List.noConfusion h)

/-- Witness for C4 at the concrete cyclic corpus. -/
theorem file_retention_rule_witness :
    ((trimWithMethods [cycFile] [cycRef] true).files =
      (keptFiles [cycFile] [cycRef]).map
        (filterFileDescriptor (finalState [cycFile] [cycRef]) [cycRef]
          (keptFileNames [cycFile] [cycRef]))) ∧
    (∀ fd : FileD,
      isFileRequired (finalState [cycFile] [cycRef]) [cycRef] fd = true ↔
        (∃ mr ∈ [cycRef], mr.fileName = fd.name) ∨
        (∃ m ∈ fd.messages, m.name ∈ (finalState [cycFile] [cycRef]).requiredMessages) ∨
        (∃ e ∈ fd.enums, e ∈ (finalState [cycFile] [cycRef]).requiredEnums)) :=
  file_retention_rule [cycFile] [cycRef] true (by decide)

/-- Witness for C5: the kept import edge of the pruned `a.proto` targets a
file present in the output. -/
theorem import_soundness_witness :
    ∃ pf2 ∈ (trimWithMethods [depFileA, depFileB] [depRef] true).files,
      pf2.name = "b.proto" :=
  (import_soundness [depFileA, depFileB] [depRef] true).1
    ((trimWithMethods [depFileA, depFileB] [depRef] true).files.headD
      ⟨"", "", "", [], [], [], [], none⟩)
    (by decide) "b.proto" (by decide)

theorem findMsg_of_nodup {corpus : List MessageD} {m : MessageD} {a : String}
    (hnodup : (corpus.map MessageD.name).Nodup) (hm : m ∈ corpus) (hname : m.name = a) :
    findMsg corpus a = some m := by
  induction corpus with
  | nil => cases hm
  | cons m0 rest ih =>
      rw [List.map_cons, List.nodup_cons] at hnodup
      rcases List.mem_cons.mp hm with rfl | hmem
      · unfold findMsg
        rw [List.find?_cons_of_pos _ (by simp [hname])]
      · by_cases h0 : m0.name = a
        · exfalso
          apply hnodup.1
          rw [h0, ← hname]
          exact List.mem_map_of_mem _ hmem
        · unfold findMsg
          rw [List.find?_cons_of_neg _ (by simp [h0])]
          exact ih hnodup.2 hmem

theorem closed_step_msg {corpus : List MessageD} {st : TState} {a b0 : String}
    (hnodup : (corpus.map MessageD.name).Nodup) (hclosed : stateClosed corpus st)
    (ha : a ∈ st.requiredMessages) (href : DirectMsgRef corpus a b0) :
    b0 ∈ st.requiredMessages := by
  obtain ⟨m, hm, hname, f, hf, hrefb⟩ := href
  have hfind := findMsg_of_nodup hnodup hm hname
  have := (hclosed a ha m hfind f hf).1 b0 hrefb
  rcases this with hin | hstk
  · exact hin
  · cases hstk

theorem closed_step_enum {corpus : List MessageD} {st : TState} {a e : String}
    (hnodup : (corpus.map MessageD.name).Nodup) (hclosed : stateClosed corpus st)
    (ha : a ∈ st.requiredMessages) (href : DirectEnumRef corpus a e) :
    e ∈ st.requiredEnums := by
  obtain ⟨m, hm, hname, f, hf, hrefe⟩ := href
  have hfind := findMsg_of_nodup hnodup hm hname
  have := (hclosed a ha m hfind f hf).2 e hrefe
  rcases this with hin | hstk
  · exact hin
  · cases hstk

theorem reach_required {corpus : List MessageD} {st : TState} {start tgt : String}
    (hnodup : (corpus.map MessageD.name).Nodup) (hclosed : stateClosed corpus st)
    (hstart : start ∈ st.requiredMessages)
    (hreach : Relation.ReflTransGen (DirectMsgRef corpus) start tgt) :
    tgt ∈ st.requiredMessages := by
  induction hreach with
  | refl => exact hstart
  | tail _ hstep ih => exact closed_step_msg hnodup hclosed ih hstep

theorem mem_allMessages {fds : List FileD} {m : MessageD} :
    m ∈ allMessages fds ↔ ∃ fd ∈ fds, m ∈ fd.messages := by
  unfold allMessages
  exact List.mem_flatMap

theorem required_msg_present {fds : List FileD} {methods : List MethodRef} {b : Bool}
    {m2 : MessageD} {fd : FileD}
    (hcond : (methods.isEmpty && b) = false) (hfd : fd ∈ fds) (hm2 : m2 ∈ fd.messages)
    (hreq : m2.name ∈ (finalState fds methods).requiredMessages) :
    ∃ pf ∈ (trimWithMethods fds methods b).files, ∃ m ∈ pf.messageType, m.name = m2.name := by
  have hfile : isFileRequired (finalState fds methods) methods fd = true := by
    unfold isFileRequired
    simp only [Bool.or_eq_true, List.any_eq_true]
    exact Or.inl (Or.inr ⟨m2, hm2, by simpa using hreq⟩)
  refine ⟨filterFileDescriptor (finalState fds methods) methods
      (keptFileNames fds methods) fd, ?_, m2, ?_, rfl⟩
  · exact (mem_trim_files_iff hcond).mpr ⟨fd, hfd, hfile, rfl⟩
  · show m2 ∈ fd.messages.filter
      (fun m => (finalState fds methods).requiredMessages.contains m.name)
    exact List.mem_filter.mpr ⟨hm2, by simpa using hreq⟩

theorem required_enum_present {fds : List FileD} {methods : List MethodRef} {b : Bool}
    {e : String} {fd : FileD}
    (hcond : (methods.isEmpty && b) = false) (hfd : fd ∈ fds) (he : e ∈ fd.enums)
    (hreq : e ∈ (finalState fds methods).requiredEnums) :
    ∃ pf ∈ (trimWithMethods fds methods b).files, e ∈ pf.enumType := by
  have hfile : isFileRequired (finalState fds methods) methods fd = true := by
    unfold isFileRequired
    simp only [Bool.or_eq_true, List.any_eq_true]
    exact Or.inr ⟨e, he, by simpa using hreq⟩
  refine ⟨filterFileDescriptor (finalState fds methods) methods
      (keptFileNames fds methods) fd, ?_, ?_⟩
  · exact (mem_trim_files_iff hcond).mpr ⟨fd, hfd, hfile, rfl⟩
  · show e ∈ fd.enums.filter (fun e2 => (finalState fds methods).requiredEnums.contains e2)
    exact List.mem_filter.mpr ⟨he, by simpa using hreq⟩

/-- C1: closure completeness.  In every run output, every record type
reachable through field references from a kept record type or from the
input/output type of a resolved entry method is present in some kept file,
and so is every enum type referenced along the way.  The hypotheses are the
well-formedness guarantees of the external parser: corpus-wide unique
fully-qualified names and resolvable type references. -/
theorem closure_completeness (fds : List FileD) (methods : List MethodRef) (b : Bool)
    (hnodup : ((allMessages fds).map MessageD.name).Nodup)
    (hres : ∀ m ∈ allMessages fds, ∀ f ∈ m.fields, ∀ n ∈ f.msgRef,
      ∃ m2 ∈ allMessages fds, m2.name = n)
    (henum : ∀ m ∈ allMessages fds, ∀ f ∈ m.fields, ∀ e ∈ f.enumRef,
      ∃ fd ∈ fds, e ∈ fd.enums)
    (hseed : ∀ mr ∈ methods,
      (∃ m2 ∈ allMessages fds, m2.name = mr.m.inputType) ∧
      (∃ m2 ∈ allMessages fds, m2.name = mr.m.outputType)) :
    ∀ start tgt : String,
      ((∃ pf ∈ (trimWithMethods fds methods b).files,
          ∃ m ∈ pf.messageType, m.name = start) ∨
       (∃ mr ∈ methods, mr.m.inputType = start ∨ mr.m.outputType = start)) →
      Relation.ReflTransGen (DirectMsgRef (allMessages fds)) start tgt →
      ((∃ pf ∈ (trimWithMethods fds methods b).files,
          ∃ m ∈ pf.messageType, m.name = tgt) ∧
       (∀ e, DirectEnumRef (allMessages fds) tgt e →
          ∃ pf ∈ (trimWithMethods fds methods b).files, e ∈ pf.enumType)) := by
  intro start tgt hroot hreach
  have hclosed : stateClosed (allMessages fds) (finalState fds methods) :=
    seedAll_closed methods (stateClosed_initial (allMessages fds))
  cases hcond : (methods.isEmpty && b) with
  | true =>
      exfalso
      rcases hroot with ⟨pf, hpf, _⟩ | ⟨mr, hmr, _⟩
      · rw [trimWithMethods_warn hcond] at hpf
        cases hpf
      · have : methods = [] := by
          cases methods with
          | nil => rfl
          | cons a l => simp at hcond
        subst this
        cases hmr
  | false =>
      have hstart : start ∈ (finalState fds methods).requiredMessages := by
        rcases hroot with ⟨pf, hpf, m, hm, hname⟩ | ⟨mr, hmr, hio⟩
        · rw [mem_trim_files_iff hcond] at hpf
          obtain ⟨fd, _, _, rfl⟩ := hpf
          have : m ∈ fd.messages.filter
              (fun m => (finalState fds methods).requiredMessages.contains m.name) := hm
          have hmem := List.mem_filter.mp this
          rw [← hname]
          simpa using hmem.2
        · have := @seedAll_mem (allMessages fds) methods mr hmr initialState
          rcases hio with rfl | rfl
          · exact this.1
          · exact this.2
      have htgt : tgt ∈ (finalState fds methods).requiredMessages :=
        reach_required hnodup hclosed hstart hreach
      have howner : ∃ m2 ∈ allMessages fds, m2.name = tgt := by
        rcases (Relation.ReflTransGen.cases_tail hreach) with rfl | ⟨b0, _, hstep⟩
        · rcases hroot with ⟨pf, hpf, m, hm, hname⟩ | ⟨mr, hmr, hio⟩
          · rw [mem_trim_files_iff hcond] at hpf
            obtain ⟨fd, hfd, _, rfl⟩ := hpf
            have : m ∈ fd.messages.filter
                (fun m => (finalState fds methods).requiredMessages.contains m.name) := hm
            exact ⟨m, mem_allMessages.mpr ⟨fd, hfd, (List.mem_filter.mp this).1⟩, hname⟩
          · rcases hio with rfl | rfl
            · exact (hseed mr hmr).1
            · exact (hseed mr hmr).2
        · obtain ⟨m0, hm0, _, f, hf, href⟩ := hstep
          exact hres m0 hm0 f hf tgt (Option.mem_def.mpr href)
      obtain ⟨m2, hm2corpus, hm2name⟩ := howner
      obtain ⟨fd, hfd, hm2fd⟩ := mem_allMessages.mp hm2corpus
      constructor
      · subst hm2name
        exact required_msg_present hcond hfd hm2fd htgt
      · intro e heref
        have he : e ∈ (finalState fds methods).requiredEnums :=
          closed_step_enum hnodup hclosed htgt heref
        obtain ⟨m3, hm3, hname3, f3, hf3, href3⟩ := heref
        obtain ⟨fd3, hfd3, he3⟩ := henum m3 hm3 f3 hf3 e (Option.mem_def.mpr href3)
        exact required_enum_present hcond hfd3 he3 he

/-- Witness for C1 at the concrete two-file corpus, rooted at the entry
method's input type. -/
theorem closure_completeness_witness :
    (∃ pf ∈ (trimWithMethods [depFileA, depFileB] [depRef] true).files,
        ∃ m ∈ pf.messageType, m.name = "pkg.A2") ∧
    (∀ e, DirectEnumRef (allMessages [depFileA, depFileB]) "pkg.A2" e →
        ∃ pf ∈ (trimWithMethods [depFileA, depFileB] [depRef] true).files,
          e ∈ pf.enumType) :=
  closure_completeness [depFileA, depFileB] [depRef] true
    (by decide) (by decide) (by decide) (by decide)
    "pkg.A2" "pkg.A2" (by decide) Relation.ReflTransGen.refl

theorem strData_append (s t : String) : (s ++ t).data = s.data ++ t.data := rfl

theorem commonPrefixAll_prefix_head :
    ∀ (segs : List String) (others : List (List String)),
      commonPrefixAll segs others <+: segs := by
  intro segs
  induction segs with
  | nil => intro others; exact List.nil_prefix
  | cons s ss ih =>
      intro others
      rw [commonPrefixAll]
      split
      · exact (List.prefix_cons_inj s).mpr (ih _)
      · exact List.nil_prefix

theorem commonPrefixAll_prefix_mem :
    ∀ (segs : List String) (others : List (List String)) (o : List String),
      o ∈ others → commonPrefixAll segs others <+: o := by
  intro segs
  induction segs with
  | nil => intro others o _; exact List.nil_prefix
  | cons s ss ih =>
      intro others o ho
      rw [commonPrefixAll]
      split
      · rename_i hall
        have hhead : o.head? = some s := by
          have := List.all_eq_true.mp hall o ho
          simpa using this
        cases o with
        | nil => cases hhead
        | cons a o2 =>
            have ha : a = s := by simpa using hhead
            subst ha
            have := ih (others.map (fun o => o.tail)) o2
              (by
                have : (a :: o2).tail = o2 := rfl
                exact this ▸ List.mem_map_of_mem _ ho)
            exact (List.prefix_cons_inj a).mpr this
      · exact List.nil_prefix

theorem commonPrefixAll_longest :
    ∀ (c segs : List String) (others : List (List String)),
      c <+: segs → (∀ o ∈ others, c <+: o) → c <+: commonPrefixAll segs others := by
  intro c
  induction c with
  | nil => intro segs others _ _; exact List.nil_prefix
  | cons x c2 ih =>
      intro segs others hseg hothers
      cases segs with
      | nil =>
          exfalso
          have := hseg.length_le
          simp at this
      | cons s ss =>
          have hx : x = s ∧ c2 <+: ss := by
            rw [List.cons_prefix_cons] at hseg
            exact hseg
          obtain ⟨rfl, hc2⟩ := hx
          rw [commonPrefixAll]
          have hall : others.all (fun o => o.head? == some x) = true := by
            apply List.all_eq_true.mpr
            intro o ho
            have := hothers o ho
            cases o with
            | nil =>
                exfalso
                have := this.length_le
                simp at this
            | cons a o2 =>
                rw [List.cons_prefix_cons] at this
                simp [this.1]
          rw [if_pos hall]
          apply (List.prefix_cons_inj x).mpr
          apply ih ss _ hc2
          intro o2 ho2
          obtain ⟨o, ho, rfl⟩ := List.mem_map.mp ho2
          have := hothers o ho
          cases o with
          | nil =>
              exfalso
              have := this.length_le
              simp at this
          | cons a o3 =>
              rw [List.cons_prefix_cons] at this
              exact this.2

theorem remap_restore_roundtrip {allPaths : List String} {root p : String}
    (hp : p ∈ allPaths) (hpre : isPrefixChars root.data p.data = true) :
    restorePath allPaths root (remapPath root p) = p := by
  unfold remapPath trimPrefixStr
  rw [if_pos hpre]
  have hpfx : root.data <+: p.data := (isPrefixChars_iff _ _).mp hpre
  obtain ⟨suffix, hsuf⟩ := hpfx
  have horig : root ++ String.mk (p.data.drop root.data.length) = p := by
    have hdata : (root ++ String.mk (p.data.drop root.data.length)).data = p.data := by
      rw [strData_append]
      show root.data ++ p.data.drop root.data.length = p.data
      rw [← hsuf, List.drop_left]
    cases p with
    | mk pd =>
        cases hstr : root ++ String.mk (String.data ⟨pd⟩ |>.drop root.data.length) with
        | mk qd =>
            rw [hstr] at hdata
            have : qd = pd := by simpa using hdata
            rw [this]
  unfold restorePath
  rw [horig, if_pos (by simpa using hp)]

/-- C9: path canonicalization.  The canonicalizer computes the longest
common segment-wise prefix of the input paths (it is a common prefix of
every path, and it extends every other common prefix), not a character-wise
one (the concrete pair sharing a leading character but no full segment has
an empty common prefix); with a single input path the common prefix is that
path's containing directory; stripping the retained root from a path and
restoring it on the output key round-trips to the original path. -/
theorem path_canonicalization :
    (∀ (segs : List String) (others : List (List String)),
      commonPrefixAll segs others <+: segs ∧
      (∀ o ∈ others, commonPrefixAll segs others <+: o) ∧
      (∀ c, c <+: segs → (∀ o ∈ others, c <+: o) →
        c <+: commonPrefixAll segs others)) ∧
    (∀ (p q : String) (rest : List String),
      findLongestCommonPrefixPath (p :: q :: rest) =
        joinPath (commonPrefixAll (splitString '/' p)
          ((q :: rest).map (splitString '/')))) ∧
    (∀ p : String, findLongestCommonPrefixPath [p] = pathDir p) ∧
    (findLongestCommonPrefixPath ["ab/x", "ac/y"] = "" ∧ pathDir "a/b/c" = "a/b") ∧
    (∀ (allPaths : List String) (root p : String),
      p ∈ allPaths → isPrefixChars root.data p.data = true →
      restorePath allPaths root (remapPath root p) = p) := by
  refine ⟨?_, ?_, ?_, ?_, ?_⟩
  · intro segs others
    exact ⟨commonPrefixAll_prefix_head segs others,
      fun o ho => commonPrefixAll_prefix_mem segs others o ho,
      fun c hc hall => commonPrefixAll_longest c segs others hc hall⟩
  · intro p q rest; rfl
  · intro p; rfl
  · exact ⟨by decide, by decide⟩
  · intro allPaths root p hp hpre
    exact remap_restore_roundtrip hp hpre

/-- Witness for C9 at concrete paths. -/
theorem path_canonicalization_witness :
    (["root"] <+: commonPrefixAll ["root", "a.proto"] [["root", "sub", "b.proto"]]) ∧
    restorePath ["root/a.proto", "root/sub/b.proto"] "root/"
      (remapPath "root/" "root/a.proto") = "root/a.proto" :=
  ⟨(path_canonicalization.1 ["root", "a.proto"] [["root", "sub", "b.proto"]]).2.2
      ["root"] (by decide) (by decide),
   path_canonicalization.2.2.2.2 ["root/a.proto", "root/sub/b.proto"] "root/"
      "root/a.proto" (by decide) (by decide)⟩
